import Mathlib

/-!
Shallow embedding of the scrape-and-normalize core of the
Letterboxd-Taste-Graph repository (`src/data_processing`).

Modelling conventions:
* Python `str` / `bytes` are modelled as Lean `String` (char lists via `.data`);
* Python `float` rating values are modelled as `ℚ` (all values the code
  manipulates are exact decimals);
* a fetched-and-parsed HTML document is modelled by a structure holding
  exactly the facts the Python code reads out of the `BeautifulSoup` DOM
  (anchor texts, hrefs, element classes, ...); the `lxml` parsing itself is
  outside the model's boundary;
* raised exceptions are modelled with `Except`, absent values with `Option`.
-/

namespace LetterboxdTasteGraph

/-! ### Python string helpers -/

/-- Value of a string of ASCII decimal digits (used to model Python `int(s)`
on an all-digit string). -/
def digitsVal (l : List Char) : Nat :=
  l.foldl (fun a c => 10 * a + (c.toNat - 48)) 0

/-- Python `int(s)` on a trimmed token: optional sign followed by at least one
ASCII digit; anything else raises, modelled as `none`.  (Underscore digit
separators accepted by CPython are not modelled; no input relevant here
contains them.) -/
def pyParseInt : List Char → Option Int
  | [] => none
  | c :: cs =>
    if c = '-' then
      if !cs.isEmpty && cs.all (·.isDigit) then some (-(digitsVal cs : Int)) else none
    else if c = '+' then
      if !cs.isEmpty && cs.all (·.isDigit) then some ((digitsVal cs : Int)) else none
    else
      if (c :: cs).all (·.isDigit) then some ((digitsVal (c :: cs) : Int)) else none

/-- Python `str.strip()` restricted to ASCII whitespace: drop leading and
trailing whitespace characters. -/
def pyStrip (l : List Char) : List Char :=
  ((l.dropWhile (·.isWhitespace)).reverse.dropWhile (·.isWhitespace)).reverse

/-- Python `str.isdigit` restricted to ASCII decimal digits (pagination labels
are ASCII). -/
def strIsDigit (s : String) : Bool :=
  !s.data.isEmpty && s.data.all (·.isDigit)

/-- Python `"pat" in s` substring test. -/
def containsSub (s pat : String) : Bool :=
  decide (pat.data <:+: s.data)

/-- Python round-half-to-even on an exact rational. -/
def pyRoundHalfEven (x : ℚ) : ℤ :=
  let f := ⌊x⌋
  if x - f < 1/2 then f
  else if 1/2 < x - f then f + 1
  else if f % 2 = 0 then f else f + 1

/-- Python `round(x, 1)` on an exact rational (the only values the repository
rounds are exact multiples of `0.1`, where binary-float `round` agrees with
exact half-even rounding). -/
def pyRound1 (x : ℚ) : ℚ :=
  (pyRoundHalfEven (x * 10) : ℚ) / 10

/-! ### Rating parsers — `src/data_processing/get_user_ratings.py` -/

namespace GetUserRatings

/-- `_parse_rating_from_class` (get_user_ratings.py lines 34-46): scan the
class list for the first class starting with `"rated-"`, parse its integer
suffix `n` (everything after the first `-`), reject `n < 5`, `n > 50` or
`n % 5 ≠ 0`, otherwise return `n / 10`; any failure yields the sentinel -1. -/
def parse_rating_from_class (classList : List String) : ℚ :=
  match classList.find? (fun c => c.data.take 6 == "rated-".data) with
  | none => -1
  | some c =>
    match pyParseInt (c.data.drop 6) with
    | none => -1
    | some n => if n < 5 ∨ 50 < n ∨ n % 5 ≠ 0 then -1 else (n : ℚ) / 10

/-- `_parse_rating_text` (get_user_ratings.py lines 49-58): count `★` glyphs,
add `0.5` for a `½` glyph; no star glyph (or empty text) yields -1. -/
def parse_rating_text (text : String) : ℚ :=
  if text = "" then -1
  else
    let t := pyStrip text.data
    if !t.contains '★' then -1
    else
      let stars : ℚ := ((t.filter (· == '★')).length : ℚ)
      if t.contains '½' then stars + 1/2 else stars

/-- `_normalize_possible_fraction` (get_user_ratings.py lines 61-67): any
value in `[0, 1]` is rescaled by `round(val * 5, 1)`; everything else (the
sentinel -1 included) passes through unchanged. -/
def normalize_possible_fraction (val : ℚ) : ℚ :=
  if 0 ≤ val ∧ val ≤ 1 then pyRound1 (val * 5) else val

/-- The `span.rating` element a ratings-feed tile may carry: its class list
and its `get_text(" ", strip=True)` text. -/
structure RatingEl where
  classes : List String
  text : String
deriving DecidableEq

/-- A ratings-feed film tile, reduced to the inputs of the per-tile rating
computation of `parse_ratings_page` (get_user_ratings.py lines 93-109):
`ratingEl` is the result of `select_one("span.rating[class*='rated-']")`
falling back to `select_one("span.rating")`; `viewingdata` is the text of
`select_one(".poster-viewingdata, p.poster-viewingdata")`. -/
structure RatingsTile where
  ratingEl : Option RatingEl
  viewingdata : Option String
deriving DecidableEq

/-- Per-tile rating value of `parse_ratings_page` (get_user_ratings.py lines
93-109): class parse, then glyph parse of the same element, then glyph parse
of the viewing-data text, then the fraction normalization. -/
def tile_rating_val (tile : RatingsTile) : ℚ :=
  let rv : ℚ :=
    match tile.ratingEl with
    | none => -1
    | some el =>
      let r := parse_rating_from_class el.classes
      if r = -1 then parse_rating_text el.text else r
  let rv' : ℚ :=
    if rv = -1 then
      match tile.viewingdata with
      | some vd => parse_rating_text vd
      | none => rv
    else rv
  normalize_possible_fraction rv'

end GetUserRatings

/-! ### Rating parsers — `src/data_processing/get_user_liked_reviews.py`
(textual copies of the two functions above, lines 159-177 and 180-193). -/

namespace GetUserLikedReviews

/-- `_parse_rating_from_class` (get_user_liked_reviews.py lines 159-177). -/
def parse_rating_from_class (classList : List String) : ℚ :=
  match classList.find? (fun c => c.data.take 6 == "rated-".data) with
  | none => -1
  | some c =>
    match pyParseInt (c.data.drop 6) with
    | none => -1
    | some n => if n < 5 ∨ 50 < n ∨ n % 5 ≠ 0 then -1 else (n : ℚ) / 10

/-- `_parse_rating_text` (get_user_liked_reviews.py lines 180-193). -/
def parse_rating_text (text : String) : ℚ :=
  if text = "" then -1
  else
    let t := pyStrip text.data
    if !t.contains '★' then -1
    else
      let stars : ℚ := ((t.filter (· == '★')).length : ℚ)
      if t.contains '½' then stars + 1/2 else stars

end GetUserLikedReviews

/-! ### Fetch helpers (C1)

Each fetch helper is modelled as a function of the network's behaviour for
the requested URL.  `NetEvent.ok body` is a completed response; `connError`
is an exception raised by `session.get(...)` itself (connection failure, or
a timeout before the response arrives); `readError` is an exception raised
while reading / decoding the response body.  A propagated exception is
`Except.error ()`; a contained one becomes an `Option`-absent body. -/

inductive NetEvent where
  | ok (body : String)
  | connError
  | readError
deriving DecidableEq

namespace GetUserRatings

/-- `fetch` (get_user_ratings.py lines 24-31).  The `try/except` sits inside
`async with session.get(...)`: only the `response.read()` is guarded, so an
exception raised by `session.get` itself escapes the function. -/
def fetch : NetEvent → Except Unit (Option String)
  | .ok b => .ok (some b)
  | .connError => .error ()
  | .readError => .ok none

end GetUserRatings

namespace GetUserWatchlist

/-- `fetch` (get_user_watchlist.py lines 20-27), same shape as the ratings
fetch: only `response.read()` is inside the `try`. -/
def fetch : NetEvent → Except Unit (Option String)
  | .ok b => .ok (some b)
  | .connError => .error ()
  | .readError => .ok none

end GetUserWatchlist

namespace GetUserMutuals

/-- `fetch` (get_user_mutuals.py lines 16-21): the whole request, including
`session.get`, is inside the `try`, so every failure becomes `None`. -/
def fetch : NetEvent → Except Unit (Option String)
  | .ok b => .ok (some b)
  | .connError => .ok none
  | .readError => .ok none

end GetUserMutuals

namespace GetUser

/-- `fetch` (get_user.py lines 19-24): whole request inside the `try`. -/
def fetch : NetEvent → Except Unit (Option String)
  | .ok b => .ok (some b)
  | .connError => .ok none
  | .readError => .ok none

end GetUser

namespace GetUserLikedReviews

/-- `fetch_text` (get_user_liked_reviews.py lines 27-35): whole request
inside the `try`; failures return `(None, meta)`. -/
def fetch_text : NetEvent → Except Unit (Option String)
  | .ok b => .ok (some b)
  | .connError => .ok none
  | .readError => .ok none

end GetUserLikedReviews

/-! ### Python `sorted` on strings

Python sorts strings lexicographically by code point; we model that order
with an executable comparison on the underlying char lists and an insertion
sort. -/

/-- Code-point lexicographic `≤` on char lists (Python string order). -/
def charListLe : List Char → List Char → Bool
  | [], _ => true
  | _ :: _, [] => false
  | a :: as, b :: bs =>
    if a.toNat < b.toNat then true
    else if b.toNat < a.toNat then false
    else charListLe as bs

/-- Python `≤` on strings. -/
def strLeB (a b : String) : Bool := charListLe a.data b.data

/-- Insert into a sorted list of strings. -/
def insertSorted (x : String) : List String → List String
  | [] => [x]
  | y :: ys => if strLeB x y then x :: y :: ys else y :: insertSorted x ys

/-- Python `sorted` on a list of strings. -/
def sortStrings (l : List String) : List String := l.foldr insertSorted []

/-- Python `sorted(set(...))`: sorted list of the distinct elements. -/
def sortedDedupStr (l : List String) : List String := sortStrings l.dedup

theorem charListLe_total (a b : List Char) :
    charListLe a b = true ∨ charListLe b a = true := by
  induction a generalizing b with
  | nil => left; rfl
  | cons x xs ih =>
    cases b with
    | nil => right; rfl
    | cons y ys =>
      by_cases h1 : x.toNat < y.toNat
      · left; simp [charListLe, h1]
      · by_cases h2 : y.toNat < x.toNat
        · right; simp [charListLe, h2]
        · rcases ih ys with h | h
          · left; simp [charListLe, h1, h2, h]
          · right; simp [charListLe, h1, h2, h]

theorem mem_insertSorted {a x : String} {l : List String} :
    a ∈ insertSorted x l ↔ a = x ∨ a ∈ l := by
  induction l with
  | nil => simp [insertSorted]
  | cons y ys ih =>
    by_cases h : strLeB x y
    · simp [insertSorted, h]
    · simp only [insertSorted, h, if_neg, Bool.false_eq_true, if_false,
        List.mem_cons, ih]
      tauto

theorem charListLe_trans : ∀ (a b c : List Char),
    charListLe a b = true → charListLe b c = true → charListLe a c = true := by
  intro a
  induction a with
  | nil => intro b c _ _; rfl
  | cons x xs ih =>
    intro b c h1 h2
    cases b with
    | nil => simp [charListLe] at h1
    | cons y ys =>
      cases c with
      | nil => simp [charListLe] at h2
      | cons z zs =>
        by_cases hxy : x.toNat < y.toNat
        · by_cases hyz : y.toNat < z.toNat
          · have hxz : x.toNat < z.toNat := by omega
            simp [charListLe, hxz]
          · by_cases hzy : z.toNat < y.toNat
            · simp [charListLe, hyz, hzy] at h2
            · have hxz : x.toNat < z.toNat := by omega
              simp [charListLe, hxz]
        · by_cases hyx : y.toNat < x.toNat
          · simp [charListLe, hxy, hyx] at h1
          · simp only [charListLe, hxy, hyx, if_false] at h1
            by_cases hyz : y.toNat < z.toNat
            · have hxz : x.toNat < z.toNat := by omega
              simp [charListLe, hxz]
            · by_cases hzy : z.toNat < y.toNat
              · simp [charListLe, hyz, hzy] at h2
              · simp only [charListLe, hyz, hzy, if_false] at h2
                have hxz : ¬ x.toNat < z.toNat := by omega
                have hzx : ¬ z.toNat < x.toNat := by omega
                simp only [charListLe, hxz, hzx, if_false]
                exact ih ys zs h1 h2

theorem strLeB_trans {a b c : String}
    (h1 : strLeB a b = true) (h2 : strLeB b c = true) : strLeB a c = true :=
  charListLe_trans a.data b.data c.data h1 h2

theorem pairwise_insertSorted {x : String} {l : List String}
    (hl : l.Pairwise (fun u v => strLeB u v = true)) :
    (insertSorted x l).Pairwise (fun u v => strLeB u v = true) := by
  induction l with
  | nil => simp [insertSorted]
  | cons y ys ih =>
    rcases List.pairwise_cons.mp hl with ⟨hy, hys⟩
    by_cases h : strLeB x y = true
    · rw [insertSorted, if_pos h]
      refine List.pairwise_cons.mpr ⟨?_, hl⟩
      intro b hb
      rcases List.mem_cons.mp hb with rfl | hb
      · exact h
      · exact strLeB_trans h (hy b hb)
    · have hxy : strLeB y x = true := by
        rcases charListLe_total x.data y.data with h' | h'
        · exact absurd h' h
        · exact h'
      rw [insertSorted, if_neg h]
      refine List.pairwise_cons.mpr ⟨?_, ih hys⟩
      intro b hb
      rcases mem_insertSorted.mp hb with rfl | hb
      · exact hxy
      · exact hy b hb

theorem nodup_insertSorted {x : String} {l : List String}
    (hx : x ∉ l) (hl : l.Nodup) : (insertSorted x l).Nodup := by
  induction l with
  | nil => simp [insertSorted]
  | cons y ys ih =>
    rcases List.nodup_cons.mp hl with ⟨hy, hys⟩
    by_cases h : strLeB x y = true
    · rw [insertSorted, if_pos h]
      refine List.nodup_cons.mpr ⟨?_, hl⟩
      intro hmem
      exact hx hmem
    · rw [insertSorted, if_neg h]
      refine List.nodup_cons.mpr ⟨?_, ih (fun hm => hx (List.mem_cons_of_mem _ hm)) hys⟩
      intro hmem
      rcases mem_insertSorted.mp hmem with rfl | hmem
      · exact hx (List.mem_cons_self _ _)
      · exact hy hmem

theorem sortStrings_cons (x : String) (xs : List String) :
    sortStrings (x :: xs) = insertSorted x (sortStrings xs) := rfl

theorem mem_sortStrings {a : String} {l : List String} :
    a ∈ sortStrings l ↔ a ∈ l := by
  induction l with
  | nil => simp [sortStrings]
  | cons x xs ih =>
    rw [sortStrings_cons, mem_insertSorted, ih, List.mem_cons]

theorem pairwise_sortStrings (l : List String) :
    (sortStrings l).Pairwise (fun u v => strLeB u v = true) := by
  induction l with
  | nil => simp [sortStrings]
  | cons x xs ih =>
    rw [sortStrings_cons]
    exact pairwise_insertSorted ih

theorem nodup_sortStrings {l : List String} (h : l.Nodup) :
    (sortStrings l).Nodup := by
  induction l with
  | nil => simp [sortStrings]
  | cons x xs ih =>
    rcases List.nodup_cons.mp h with ⟨hx, hxs⟩
    rw [sortStrings_cons]
    exact nodup_insertSorted (fun hm => hx (mem_sortStrings.mp hm)) (ih hxs)

theorem mem_sortedDedupStr {a : String} {l : List String} :
    a ∈ sortedDedupStr l ↔ a ∈ l := by
  rw [sortedDedupStr, mem_sortStrings, List.mem_dedup]

theorem nodup_sortedDedupStr (l : List String) : (sortedDedupStr l).Nodup :=
  nodup_sortStrings (List.nodup_dedup l)

/-! ### Followers / following — `src/data_processing/get_user_mutuals.py` -/

/-- A fetched followers/following page, reduced to the DOM facts the Python
code reads: the response bytes (for truthiness and the not-found marker),
the stripped texts of `div.paginate-pages a`, the page number matched by
`/page/(\d+)/` in the `link[rel="last"]` href (`none` when the link is
absent or its href does not match), and the hrefs of the anchors matched by
`table a[href^='/'][href$='/']` resp. `a[href^='/'][href$='/']`. -/
structure PageDoc where
  raw : String
  paginateTexts : List String
  relLastHrefPage : Option Nat
  peopleHrefsTable : List String
  peopleHrefsAll : List String

namespace GetUserMutuals

/-- `get_page_count_from_html` (get_user_mutuals.py lines 24-43): max of the
numeric pagination labels, else the `rel="last"` page number, else 1. -/
def get_page_count_from_html (pg : PageDoc) : Nat :=
  let pages := ((pg.paginateTexts.filter strIsDigit).map (fun t => digitsVal t.data))
  if pages.isEmpty then
    match pg.relLastHrefPage with
    | some n => n
    | none => 1
  else pages.foldl max 0

/-- Python `href.count("/")`. -/
def slashCount (h : String) : Nat := (h.data.filter (· == '/')).length

/-- Python `href.strip("/")`. -/
def stripSlashes (h : String) : String :=
  ⟨((h.data.dropWhile (· == '/')).reverse.dropWhile (· == '/')).reverse⟩

/-- `parse_people_page` (get_user_mutuals.py lines 46-67): usernames from
table anchors whose href has exactly two slashes, falling back to all
anchors when that set is empty; returns the sorted set. -/
def parse_people_page (pg : PageDoc) : List String :=
  let tbl := (pg.peopleHrefsTable.filter (fun h => slashCount h == 2)).map stripSlashes
  let names :=
    if tbl.isEmpty then
      (pg.peopleHrefsAll.filter (fun h => slashCount h == 2)).map stripSlashes
    else tbl
  sortedDedupStr names

/-- URL of page 1 of `/{username}/{kind}/`. -/
def peopleBase (username kind : String) : String :=
  "https://letterboxd.com/" ++ username ++ "/" ++ kind ++ "/"

/-- URL of page `p` of `/{username}/{kind}/`. -/
def peoplePageUrl (username kind : String) (p : Nat) : String :=
  "https://letterboxd.com/" ++ username ++ "/" ++ kind ++ "/page/" ++ toString p ++ "/"

/-- The URLs `get_all_people` fetches in its gather phase (get_user_mutuals.py
lines 90-94), i.e. every fetch issued after the initial page-1 fetch of line
80: the base URL again, then `/page/p/` for `p = 2 .. num_pages`. -/
def people_fetch_urls (username kind : String) (numPages : Nat) : List String :=
  peopleBase username kind ::
    (List.range' 2 (numPages - 1)).map (peoplePageUrl username kind)

/-- `get_all_people` (get_user_mutuals.py lines 70-101), over a network
environment `env` mapping a URL to its fetched document (`none` = fetch
failure).  `Except.error` models the `ValueError` for a bad `kind`. -/
def get_all_people (env : String → Option PageDoc) (username kind : String) :
    Except String (List String) :=
  if kind ≠ "followers" ∧ kind ≠ "following" then
    .error "kind must be 'followers' or 'following'"
  else
    match env (peopleBase username kind) with
    | none => .ok []
    | some pg =>
      if pg.raw = "" then .ok []
      else if containsSub pg.raw "Page not found" then .ok []
      else
        let numPages := get_page_count_from_html pg
        let fetched := (people_fetch_urls username kind numPages).map env
        let contents := fetched.foldr
          (fun o acc =>
            match o with
            | some p => if p.raw = "" then acc else parse_people_page p ++ acc
            | none => acc) []
        .ok (sortedDedupStr contents)

/-- `get_mutuals` (get_user_mutuals.py lines 112-114):
`sorted(set(followers) & set(following))`. -/
def get_mutuals (followers following : List String) : List String :=
  sortStrings ((followers.filter (fun u => following.contains u)).dedup)

end GetUserMutuals

/-! ### Watchlist — `src/data_processing/get_user_watchlist.py` -/

/-- One record of the watchlist feed. -/
structure WatchItem where
  movie_id : String
  display_name : String
deriving DecidableEq

namespace GetUserWatchlist

/-- A watchlist film tile, reduced to the `(slug, title)` pair that
`_extract_slug_and_title` (get_user_watchlist.py lines 30-89) produces from
its fallback chain over the tile's markup. -/
structure WatchTile where
  slug : Option String
  title : Option String
deriving DecidableEq

/-- A fetched watchlist page: response bytes and its film tiles. -/
structure WatchPage where
  raw : String
  tiles : List WatchTile

/-- Python `title or slug` (an empty title is falsy). -/
def pyOrStr (a : Option String) (b : String) : String :=
  match a with
  | some s => if s = "" then b else s
  | none => b

/-- `parse_watchlist_page` (get_user_watchlist.py lines 92-114): skip tiles
without a slug, keep `{movie_id: slug, display_name: title or slug}`. -/
def parse_watchlist_page (pg : WatchPage) : List WatchItem :=
  if pg.raw = "" then []
  else pg.tiles.foldr
    (fun t acc =>
      match t.slug with
      | none => acc
      | some slug => ⟨slug, pyOrStr t.title slug⟩ :: acc) []

/-- Modelled from the spec: `get_page_count` is imported from
`data_processing/utils/utils.py`, which is not among the sources.  Per the
spec (§4.2 page-count extraction, §7 user-not-found) it fetches page 1 of
the given listing and returns the sentinel `-1` when that page carries the
"not found" marker, and otherwise the page count: max numeric page-link
label, else the `rel="last"` page number, else 1.  A failed page-1 fetch is
also mapped to the sentinel. -/
def get_page_count (firstPage : Option PageDoc) : Int :=
  match firstPage with
  | none => -1
  | some pg =>
    if containsSub pg.raw "Page not found" then -1
    else (GetUserMutuals.get_page_count_from_html pg : Int)

/-- Network environment of the watchlist feed: page 1 of `/{user}/watchlist`
as probed by `get_page_count`, and the documents of
`/{user}/watchlist/page/N/`. -/
structure WatchEnv where
  firstPage : Option PageDoc
  pages : Nat → Option WatchPage

/-- `get_user_watchlist` (get_user_watchlist.py lines 117-133): fetch pages
`1 .. num_pages`, drop failed or empty responses, parse and flatten. -/
def get_user_watchlist (env : WatchEnv) (numPages : Nat) : List WatchItem :=
  ((List.range numPages).map (fun i => env.pages (i + 1))).foldr
    (fun o acc =>
      match o with
      | some pg => if pg.raw = "" then acc else parse_watchlist_page pg ++ acc
      | none => acc) []

/-- `get_watchlist_data` (get_user_watchlist.py lines 136-146): probe the
page count; the sentinel -1 short-circuits to `([], "user_not_found")`,
otherwise the scraped items are returned with status `"success"`. -/
def get_watchlist_data (env : WatchEnv) : List WatchItem × String :=
  let n := get_page_count env.firstPage
  if n = -1 then ([], "user_not_found")
  else (get_user_watchlist env n.toNat, "success")

end GetUserWatchlist

/-! ### URL canonicalizer — model of CPython 3.12 `urllib.parse`

`_canonicalize_url` (identical in get_user_liked_reviews.py lines 64-69 and
get_user.py lines 120-125) is
`urlunsplit((scheme, netloc, path, "", ""))` of `urlsplit(url)`, with empty
input returned unchanged.  The model below follows CPython 3.12's
`urlsplit` / `urlunsplit` on char lists: WHATWG leading C0-control/space
strip, removal of tab/CR/LF, scheme recognition (first `:` with an ASCII
alpha head and scheme chars before it, lowercased), netloc up to the first
`/?#` after a leading `//`, then fragment and query splits.  The raise-only
validations (bracketed IPv6 hosts, NFKC netloc check) never alter the
returned components and are outside the model. -/

namespace UrlParse

/-- CPython `scheme_chars`: ASCII letters, digits, `+`, `-`, `.`. -/
def isSchemeChar (c : Char) : Bool :=
  c.isAlpha || c.isDigit || c == '+' || c == '-' || c == '.'

/-- A netloc terminator: `/`, `?` or `#`. -/
def netlocDelim (c : Char) : Bool := c == '/' || c == '?' || c == '#'

/-- Leading-strip of WHATWG C0-control-or-space, then removal of the unsafe
bytes tab, CR and LF. -/
def cleanUrl (l : List Char) : List Char :=
  (l.dropWhile (fun c => decide (c.toNat ≤ 32))).filter
    (fun c => !(c == '\t' || c == '\r' || c == '\n'))

/-- Python `url.find(a)`. -/
def findChar (a : Char) : List Char → Option Nat
  | [] => none
  | c :: cs => if c = a then some 0 else (findChar a cs).map (· + 1)

/-- The scheme-recognition step of `urlsplit`: at the first `:` (if at a
positive index, with an ASCII-alpha first char and only scheme chars before
it) split off the lowercased scheme. -/
def schemeSplit (url : List Char) : List Char × List Char :=
  match findChar ':' url with
  | none => ([], url)
  | some i =>
    if 0 < i ∧ (url.headD ' ').isAlpha = true ∧ (url.take i).all isSchemeChar = true then
      ((url.take i).map Char.toLower, url.drop (i + 1))
    else ([], url)

/-- `_splitnetloc(url, 2)`: the netloc runs from index 2 to the first
`/?#`; the remainder keeps the delimiter. -/
def splitNetloc2 (url : List Char) : List Char × List Char :=
  let rest := url.drop 2
  (rest.takeWhile (fun c => !netlocDelim c), rest.dropWhile (fun c => !netlocDelim c))

/-- Python `url.split(sep, 1)` (no-op second component when `sep` absent). -/
def splitFirst (sep : Char) (l : List Char) : List Char × List Char :=
  if l.contains sep then
    (l.takeWhile (fun c => !(c == sep)), (l.dropWhile (fun c => !(c == sep))).drop 1)
  else (l, [])

/-- The five components returned by `urlsplit`. -/
structure SplitResult where
  scheme : List Char
  netloc : List Char
  path : List Char
  query : List Char
  fragment : List Char
deriving DecidableEq

/-- The splitting pipeline of `urlsplit` after input cleaning: scheme, then
netloc (after a leading `//`), then fragment, then query. -/
def splitStages (url : List Char) : SplitResult :=
  let sp := schemeSplit url
  let u1 := sp.2
  let np := if u1.take 2 = ['/', '/'] then splitNetloc2 u1 else ([], u1)
  let u2 := np.2
  let fp := splitFirst '#' u2
  let qp := splitFirst '?' fp.1
  ⟨sp.1, np.1, qp.1, qp.2, fp.2⟩

/-- CPython 3.12 `urllib.parse.urlsplit` (allow_fragments=True). -/
def urlsplit (url0 : List Char) : SplitResult :=
  splitStages (cleanUrl url0)

/-- CPython `urllib.parse.urlunsplit` for an empty query and fragment. -/
def urlunsplit_noqf (scheme netloc path : List Char) : List Char :=
  let url :=
    if netloc ≠ [] ∨ path.take 2 = ['/', '/'] then
      ['/', '/'] ++ netloc ++ (if path ≠ [] ∧ path.take 1 ≠ ['/'] then '/' :: path else path)
    else path
  if scheme ≠ [] then scheme ++ ':' :: url else url

/-- `_canonicalize_url` on char lists (get_user_liked_reviews.py lines
64-69, get_user.py lines 120-125): empty input unchanged, otherwise
reassemble scheme, netloc and path with query and fragment dropped. -/
def canonicalize_url_chars (url : List Char) : List Char :=
  if url = [] then url
  else
    let p := urlsplit url
    urlunsplit_noqf p.scheme p.netloc p.path

/-- `_canonicalize_url` on strings. -/
def canonicalize_url (url : String) : String :=
  ⟨canonicalize_url_chars url.data⟩

/-! #### Generic list lemmas for the canonicalizer proofs -/

theorem takeWhile_eq_take {α : Type} (p : α → Bool) (l : List α) :
    ∃ k, l.takeWhile p = l.take k := by
  induction l with
  | nil => exact ⟨0, rfl⟩
  | cons a t ih =>
    by_cases h : p a = true
    · obtain ⟨k, hk⟩ := ih
      exact ⟨k + 1, by rw [List.takeWhile_cons, if_pos h, List.take_succ_cons, hk]⟩
    · exact ⟨0, by rw [List.takeWhile_cons, if_neg h, List.take_zero]⟩

theorem mem_takeWhile_pred {α : Type} {p : α → Bool} {l : List α} {x : α}
    (h : x ∈ l.takeWhile p) : p x = true := by
  induction l with
  | nil => cases h
  | cons a t ih =>
    rw [List.takeWhile_cons] at h
    by_cases hp : p a = true
    · rw [if_pos hp] at h
      rcases List.mem_cons.mp h with rfl | h
      · exact hp
      · exact ih h
    · rw [if_neg hp] at h
      cases h

theorem mem_takeWhile_mem {α : Type} {p : α → Bool} {l : List α} {x : α}
    (h : x ∈ l.takeWhile p) : x ∈ l := by
  induction l with
  | nil => cases h
  | cons a t ih =>
    rw [List.takeWhile_cons] at h
    by_cases hp : p a = true
    · rw [if_pos hp] at h
      rcases List.mem_cons.mp h with rfl | h
      · exact List.mem_cons_self _ _
      · exact List.mem_cons_of_mem _ (ih h)
    · rw [if_neg hp] at h
      cases h

theorem mem_dropWhile_mem {α : Type} {p : α → Bool} {l : List α} {x : α}
    (h : x ∈ l.dropWhile p) : x ∈ l := by
  induction l with
  | nil => cases h
  | cons a t ih =>
    rw [List.dropWhile_cons] at h
    by_cases hp : p a = true
    · rw [if_pos hp] at h
      exact List.mem_cons_of_mem _ (ih h)
    · rw [if_neg hp] at h
      exact h

theorem takeWhile_append_all {α : Type} {p : α → Bool} {l1 : List α} (l2 : List α)
    (h : ∀ c ∈ l1, p c = true) :
    (l1 ++ l2).takeWhile p = l1 ++ l2.takeWhile p := by
  induction l1 with
  | nil => rfl
  | cons a t ih =>
    rw [List.cons_append, List.takeWhile_cons, if_pos (h a (List.mem_cons_self _ _)),
      ih (fun c hc => h c (List.mem_cons_of_mem _ hc)), List.cons_append]

theorem dropWhile_append_all {α : Type} {p : α → Bool} {l1 : List α} (l2 : List α)
    (h : ∀ c ∈ l1, p c = true) :
    (l1 ++ l2).dropWhile p = l2.dropWhile p := by
  induction l1 with
  | nil => rfl
  | cons a t ih =>
    rw [List.cons_append, List.dropWhile_cons, if_pos (h a (List.mem_cons_self _ _)),
      ih (fun c hc => h c (List.mem_cons_of_mem _ hc))]

theorem dropWhile_head_false {α : Type} {p : α → Bool} {l : List α} {a : α} {t : List α}
    (h : l.dropWhile p = a :: t) : p a = false := by
  induction l with
  | nil => cases h
  | cons b u ih =>
    rw [List.dropWhile_cons] at h
    by_cases hp : p b = true
    · rw [if_pos hp] at h
      exact ih h
    · rw [if_neg hp] at h
      cases h
      exact Bool.eq_false_iff.mpr hp

theorem dropWhile_of_takeWhile_nil {α : Type} {p : α → Bool} {l : List α}
    (h : l.takeWhile p = []) : l.dropWhile p = l := by
  cases l with
  | nil => rfl
  | cons a t =>
    rw [List.takeWhile_cons] at h
    rw [List.dropWhile_cons]
    by_cases hp : p a = true
    · rw [if_pos hp] at h
      cases h
    · rw [if_neg hp]

theorem headD_take {α : Type} {l : List α} {k : ℕ} (d : α) (h : l.take k ≠ []) :
    (l.take k).headD d = l.headD d := by
  cases l with
  | nil => simp at h
  | cons a t =>
    cases k with
    | zero => simp at h
    | succ k => rfl

theorem contains_eq_true_of_mem {l : List Char} {a : Char} (h : a ∈ l) :
    l.contains a = true := by
  induction l with
  | nil => cases h
  | cons b t ih =>
    rw [List.contains_cons]
    rcases List.mem_cons.mp h with rfl | h
    · simp
    · rw [ih h]
      simp

theorem contains_eq_false_of_not_mem {l : List Char} {a : Char} (h : a ∉ l) :
    l.contains a = false := by
  induction l with
  | nil => rfl
  | cons b t ih =>
    rw [List.contains_cons]
    have hab : (a == b) = false := by
      refine beq_eq_false_iff_ne.mpr ?_
      intro hx
      exact h (hx ▸ List.mem_cons_self _ _)
    rw [hab]
    simp only [Bool.false_or]
    exact ih (fun hm => h (List.mem_cons_of_mem _ hm))

theorem splitFirst_of_not_mem {l : List Char} {a : Char} (h : a ∉ l) :
    splitFirst a l = (l, []) := by
  rw [splitFirst, if_neg]
  rw [List.contains]
  intro hc
  rw [show l.elem a = l.contains a from rfl, contains_eq_false_of_not_mem h] at hc
  cases hc

theorem splitFirst_fst_facts (a : Char) (l : List Char) :
    a ∉ (splitFirst a l).1 ∧ ∃ k, (splitFirst a l).1 = l.take k := by
  rw [splitFirst]
  by_cases hc : l.contains a = true
  · rw [if_pos hc]
    refine ⟨?_, ?_⟩
    · intro hm
      have := mem_takeWhile_pred hm
      simp at this
    · exact takeWhile_eq_take _ l
  · rw [if_neg (by simpa using hc)]
    refine ⟨?_, l.length, (List.take_length l).symm⟩
    intro hm
    exact hc (contains_eq_true_of_mem hm)

/-! #### Character lemmas -/

theorem uint32_le_iff {a b : UInt32} : a ≤ b ↔ a.toNat ≤ b.toNat := by
  rw [UInt32.le_def, BitVec.le_def]
  exact Iff.rfl

theorem isUpper_iff {c : Char} : c.isUpper = true ↔ 65 ≤ c.toNat ∧ c.toNat ≤ 90 := by
  rw [Char.isUpper]
  simp only [Bool.and_eq_true, decide_eq_true_eq, ge_iff_le]
  constructor
  · rintro ⟨h1, h2⟩
    exact ⟨uint32_le_iff.mp h1, uint32_le_iff.mp h2⟩
  · rintro ⟨h1, h2⟩
    exact ⟨uint32_le_iff.mpr h1, uint32_le_iff.mpr h2⟩

theorem isLower_iff {c : Char} : c.isLower = true ↔ 97 ≤ c.toNat ∧ c.toNat ≤ 122 := by
  rw [Char.isLower]
  simp only [Bool.and_eq_true, decide_eq_true_eq, ge_iff_le]
  constructor
  · rintro ⟨h1, h2⟩
    exact ⟨uint32_le_iff.mp h1, uint32_le_iff.mp h2⟩
  · rintro ⟨h1, h2⟩
    exact ⟨uint32_le_iff.mpr h1, uint32_le_iff.mpr h2⟩

theorem char_toNat_ofNat {n : ℕ} (h : n < 55296) : (Char.ofNat n).toNat = n := by
  rw [Char.ofNat, dif_pos (Or.inl h)]
  rfl

theorem toNat_toLower (c : Char) :
    (Char.toLower c).toNat
      = if 65 ≤ c.toNat ∧ c.toNat ≤ 90 then c.toNat + 32 else c.toNat := by
  simp only [Char.toLower]
  by_cases h : 65 ≤ c.toNat ∧ c.toNat ≤ 90
  · rw [if_pos ⟨h.1, h.2⟩, if_pos h]
    exact char_toNat_ofNat (by omega)
  · rw [if_neg (fun hh => h ⟨hh.1, hh.2⟩), if_neg h]

theorem toLower_eq_self_of_not_upper {c : Char}
    (h : ¬(65 ≤ c.toNat ∧ c.toNat ≤ 90)) : Char.toLower c = c := by
  simp only [Char.toLower]
  rw [if_neg (fun hh => h ⟨hh.1, hh.2⟩)]

theorem toLower_toLower (c : Char) :
    Char.toLower (Char.toLower c) = Char.toLower c := by
  by_cases h : 65 ≤ c.toNat ∧ c.toNat ≤ 90
  · refine toLower_eq_self_of_not_upper ?_
    rw [toNat_toLower, if_pos h]
    omega
  · rw [toLower_eq_self_of_not_upper h, toLower_eq_self_of_not_upper h]

theorem alpha_toLower {c : Char} (h : c.isAlpha = true) :
    (Char.toLower c).isAlpha = true := by
  rw [Char.isAlpha, Bool.or_eq_true] at h ⊢
  rcases h with h | h
  · right
    rcases isUpper_iff.mp h with ⟨h1, h2⟩
    refine isLower_iff.mpr ?_
    rw [toNat_toLower, if_pos ⟨h1, h2⟩]
    omega
  · right
    rcases isLower_iff.mp h with ⟨h1, h2⟩
    refine isLower_iff.mpr ?_
    rw [toNat_toLower, if_neg (by omega)]
    omega

theorem alpha_toNat_gt_32 {c : Char} (h : c.isAlpha = true) : 32 < c.toNat := by
  rw [Char.isAlpha, Bool.or_eq_true] at h
  rcases h with h | h
  · have := isUpper_iff.mp h
    omega
  · have := isLower_iff.mp h
    omega

theorem digit_toNat {c : Char} (h : c.isDigit = true) :
    48 ≤ c.toNat ∧ c.toNat ≤ 57 := by
  rw [Char.isDigit] at h
  simp only [Bool.and_eq_true, decide_eq_true_eq, ge_iff_le] at h
  exact ⟨uint32_le_iff.mp h.1, uint32_le_iff.mp h.2⟩

theorem toNat_eq_of_eq_char {c d : Char} (h : c = d) : c.toNat = d.toNat := by
  rw [h]

theorem schemeChar_toLower {c : Char} (h : isSchemeChar c = true) :
    isSchemeChar (Char.toLower c) = true := by
  rw [isSchemeChar, Bool.or_eq_true, Bool.or_eq_true, Bool.or_eq_true,
    Bool.or_eq_true] at h
  rcases h with (((ha | hd) | hp) | hm) | hdot
  · rw [isSchemeChar, alpha_toLower ha]
    rfl
  · have hb := digit_toNat hd
    rw [isSchemeChar, toLower_eq_self_of_not_upper (by omega), hd]
    simp
  · have : c = '+' := by simpa using hp
    subst this
    rfl
  · have : c = '-' := by simpa using hm
    subst this
    rfl
  · have : c = '.' := by simpa using hdot
    subst this
    rfl

theorem schemeChar_toNat_gt_32 {c : Char} (h : isSchemeChar c = true) : 32 < c.toNat := by
  rw [isSchemeChar, Bool.or_eq_true, Bool.or_eq_true, Bool.or_eq_true,
    Bool.or_eq_true] at h
  rcases h with (((ha | hd) | hp) | hm) | hdot
  · exact alpha_toNat_gt_32 ha
  · have := digit_toNat hd
    omega
  · have : c = '+' := by simpa using hp
    subst this
    decide
  · have : c = '-' := by simpa using hm
    subst this
    decide
  · have : c = '.' := by simpa using hdot
    subst this
    decide

theorem schemeChar_ne_colon {c : Char} (h : isSchemeChar c = true) : c ≠ ':' := by
  intro hc
  subst hc
  simp [isSchemeChar] at h

theorem schemeChar_not_trn {c : Char} (h : isSchemeChar c = true) :
    ¬(c = '\t' ∨ c = '\r' ∨ c = '\n') := by
  rintro (rfl | rfl | rfl) <;> simp [isSchemeChar] at h

/-! #### `findChar` lemmas -/

theorem findChar_lt_length {a : Char} {l : List Char} {i : ℕ}
    (h : findChar a l = some i) : i < l.length := by
  induction l generalizing i with
  | nil => cases h
  | cons c t ih =>
    rw [findChar] at h
    by_cases hc : c = a
    · rw [if_pos hc] at h
      cases h
      simp
    · rw [if_neg hc] at h
      cases hf : findChar a t with
      | none => rw [hf] at h; cases h
      | some j =>
        rw [hf] at h
        simp only [Option.map_some'] at h
        cases h
        simpa using ih hf

theorem findChar_take {a : Char} {l : List Char} {k i : ℕ}
    (h : findChar a (l.take k) = some i) : findChar a l = some i := by
  induction l generalizing k i with
  | nil => rw [List.take_nil] at h; cases h
  | cons c t ih =>
    cases k with
    | zero => cases h
    | succ k =>
      rw [List.take_succ_cons] at h
      rw [findChar] at h ⊢
      by_cases hc : c = a
      · rwa [if_pos hc] at h ⊢
      · rw [if_neg hc] at h ⊢
        cases hf : findChar a (t.take k) with
        | none => rw [hf] at h; cases h
        | some j =>
          rw [hf] at h
          rw [ih hf]
          exact h

theorem findChar_append_not_mem {a : Char} {l1 : List Char} (l2 : List Char)
    (h : a ∉ l1) :
    findChar a (l1 ++ a :: l2) = some l1.length := by
  induction l1 with
  | nil => simp [findChar]
  | cons c t ih =>
    rw [List.cons_append, findChar,
      if_neg (fun hc => h (by subst hc; exact List.mem_cons_self _ _)),
      ih (fun hm => h (List.mem_cons_of_mem _ hm))]
    rfl

/-! #### `schemeSplit` lemmas -/

theorem schemeSplit_none {l : List Char} (hf : findChar ':' l = none) :
    schemeSplit l = ([], l) := by
  rw [schemeSplit, hf]

theorem schemeSplit_some {l : List Char} {i : ℕ} (hf : findChar ':' l = some i) :
    schemeSplit l
      = if 0 < i ∧ (l.headD ' ').isAlpha = true ∧ (l.take i).all isSchemeChar = true
        then ((l.take i).map Char.toLower, l.drop (i + 1))
        else ([], l) := by
  rw [schemeSplit, hf]

theorem schemeSplit_fst_nil {l : List Char} (h : (schemeSplit l).1 = []) :
    schemeSplit l = ([], l) := by
  cases hf : findChar ':' l with
  | none => exact schemeSplit_none hf
  | some i =>
    rw [schemeSplit_some hf]
    rw [schemeSplit_some hf] at h
    by_cases hc : 0 < i ∧ (l.headD ' ').isAlpha = true ∧ (l.take i).all isSchemeChar = true
    · exfalso
      rw [if_pos hc] at h
      have hi := findChar_lt_length hf
      have hlen : ((l.take i).map Char.toLower).length = i := by
        rw [List.length_map, List.length_take]
        omega
      rw [show (((l.take i).map Char.toLower, l.drop (i + 1))).1
          = (l.take i).map Char.toLower from rfl] at h
      rw [h] at hlen
      simp at hlen
      omega
    · rw [if_neg hc]

theorem schemeSplit_of_head_not_alpha {l : List Char}
    (h : (l.headD ' ').isAlpha = false) : schemeSplit l = ([], l) := by
  cases hf : findChar ':' l with
  | none => exact schemeSplit_none hf
  | some i =>
    rw [schemeSplit_some hf, if_neg]
    rintro ⟨_, h2, _⟩
    rw [h] at h2
    cases h2

theorem schemeSplit_scheme {s : List Char} (rest : List Char) (hs : s ≠ [])
    (hal : (s.headD ' ').isAlpha = true) (hsc : s.all isSchemeChar = true)
    (hlow : s.map Char.toLower = s) :
    schemeSplit (s ++ ':' :: rest) = (s, rest) := by
  have hnc : ':' ∉ s := by
    intro hm
    exact schemeChar_ne_colon (List.all_eq_true.mp hsc _ hm) rfl
  have hf : findChar ':' (s ++ ':' :: rest) = some s.length :=
    findChar_append_not_mem rest hnc
  have hhead : ((s ++ ':' :: rest).headD ' ') = s.headD ' ' := by
    cases s with
    | nil => exact absurd rfl hs
    | cons a t => rfl
  have htake : (s ++ ':' :: rest).take s.length = s := List.take_left s _
  have hdrop : (s ++ ':' :: rest).drop (s.length + 1) = rest := by
    rw [List.append_cons s ':' rest]
    refine List.drop_left' ?_
    simp
  rw [schemeSplit_some hf,
    if_pos ⟨List.length_pos.mpr hs, by rw [hhead]; exact hal, by rw [htake]; exact hsc⟩,
    htake, hdrop, hlow]

theorem schemeSplit_take {l : List Char} (h : schemeSplit l = ([], l)) (k : ℕ) :
    schemeSplit (l.take k) = ([], l.take k) := by
  cases hf : findChar ':' (l.take k) with
  | none => exact schemeSplit_none hf
  | some i =>
    have hfl : findChar ':' l = some i := findChar_take hf
    have hil : i < (l.take k).length := findChar_lt_length hf
    rw [schemeSplit_some hf, if_neg]
    rintro ⟨h1, h2, h3⟩
    have hne : l.take k ≠ [] := by
      intro hnil
      rw [hnil] at hil
      simp at hil
    have hcond : 0 < i ∧ (l.headD ' ').isAlpha = true
        ∧ (l.take i).all isSchemeChar = true := by
      refine ⟨h1, ?_, ?_⟩
      · rw [← headD_take ' ' hne]
        exact h2
      · have hik : i < min k l.length := by rwa [List.length_take] at hil
        have htt : (l.take k).take i = l.take i := by
          rw [List.take_take]
          congr 1
          omega
        rwa [htt] at h3
    rw [schemeSplit_some hfl, if_pos hcond] at h
    have hlen : ((l.take i).map Char.toLower).length = i := by
      rw [List.length_map, List.length_take]
      have := findChar_lt_length hfl
      omega
    have hfst := congrArg Prod.fst h
    simp only at hfst
    rw [hfst] at hlen
    simp at hlen
    omega

/-! #### `cleanUrl` lemmas -/

/-- No tab, carriage return or line feed among the characters. -/
def noTRN (l : List Char) : Prop := ∀ c ∈ l, ¬(c = '\t' ∨ c = '\r' ∨ c = '\n')

theorem cleanUrl_noTRN (u : List Char) : noTRN (cleanUrl u) := by
  intro c hc
  rw [cleanUrl] at hc
  have hp := (List.mem_filter.mp hc).2
  simp only [Bool.not_eq_true', Bool.or_eq_false_iff, beq_eq_false_iff_ne] at hp
  rintro (rfl | rfl | rfl)
  · exact hp.1.1 rfl
  · exact hp.1.2 rfl
  · exact hp.2 rfl

theorem cleanUrl_headOK (u : List Char) :
    cleanUrl u = [] ∨ 32 < ((cleanUrl u).headD ' ').toNat := by
  rw [cleanUrl]
  cases hd : u.dropWhile (fun c => decide (c.toNat ≤ 32)) with
  | nil => left; rfl
  | cons a t =>
    have ha : decide (a.toNat ≤ 32) = false :=
      dropWhile_head_false (p := fun c : Char => decide (c.toNat ≤ 32)) hd
    have ha' : 32 < a.toNat := by simpa using ha
    right
    rw [List.filter_cons_of_pos ?_]
    · exact ha'
    · simp only [Bool.not_eq_true', Bool.or_eq_false_iff, beq_eq_false_iff_ne]
      refine ⟨⟨?_, ?_⟩, ?_⟩ <;> rintro rfl <;> revert ha' <;> decide

theorem cleanUrl_eq_self {l : List Char} (h1 : noTRN l)
    (h2 : l = [] ∨ 32 < (l.headD ' ').toNat) : cleanUrl l = l := by
  rw [cleanUrl]
  have hdrop : l.dropWhile (fun c => decide (c.toNat ≤ 32)) = l := by
    cases l with
    | nil => rfl
    | cons a t =>
      rcases h2 with h | h
      · simp at h
      · rw [List.dropWhile_cons, if_neg]
        simp only [decide_eq_true_eq]
        intro hle
        rw [show (a :: t).headD ' ' = a from rfl] at h
        omega
  rw [hdrop]
  refine List.filter_eq_self.mpr ?_
  intro a ha
  have hne := h1 a ha
  simp only [Bool.not_eq_true', Bool.or_eq_false_iff, beq_eq_false_iff_ne]
  exact ⟨⟨fun h => hne (Or.inl h), fun h => hne (Or.inr (Or.inl h))⟩,
    fun h => hne (Or.inr (Or.inr h))⟩

theorem headD_map_toLower_take {l : List Char} {i : ℕ} (h1 : 0 < i) (h2 : l ≠ []) :
    ((l.take i).map Char.toLower).headD ' ' = Char.toLower (l.headD ' ') := by
  cases l with
  | nil => exact absurd rfl h2
  | cons a t =>
    cases i with
    | zero => omega
    | succ i => rfl

theorem schemeSplit_snd_cases (l : List Char) :
    (schemeSplit l = ([], l))
    ∨ ((schemeSplit l).1 ≠ []
        ∧ ((schemeSplit l).1.headD ' ').isAlpha = true
        ∧ (schemeSplit l).1.all isSchemeChar = true
        ∧ (schemeSplit l).1.map Char.toLower = (schemeSplit l).1
        ∧ ∃ i, (schemeSplit l).2 = l.drop (i + 1)) := by
  cases hf : findChar ':' l with
  | none => exact Or.inl (schemeSplit_none hf)
  | some i =>
    by_cases hc : 0 < i ∧ (l.headD ' ').isAlpha = true ∧ (l.take i).all isSchemeChar = true
    · right
      rw [schemeSplit_some hf, if_pos hc]
      obtain ⟨h1, h2, h3⟩ := hc
      have hi := findChar_lt_length hf
      have hlne : l ≠ [] := by
        intro h0
        rw [h0] at hi
        simp at hi
      have htne : l.take i ≠ [] := by
        intro h0
        have hlen := congrArg List.length h0
        rw [List.length_take] at hlen
        simp only [List.length_nil] at hlen
        omega
      dsimp only
      refine ⟨?_, ?_, ?_, ?_, i, rfl⟩
      · intro h0
        exact htne (List.map_eq_nil.mp h0)
      · rw [headD_map_toLower_take h1 hlne]
        exact alpha_toLower h2
      · refine List.all_eq_true.mpr ?_
        intro x hx
        obtain ⟨c0, hc0, rfl⟩ := List.mem_map.mp hx
        exact schemeChar_toLower (List.all_eq_true.mp h3 _ hc0)
      · rw [List.map_map]
        refine List.map_congr_left ?_
        intro c _
        exact toLower_toLower c
    · left
      rw [schemeSplit_some hf, if_neg hc]

/-- Invariant satisfied by the `(scheme, netloc, path)` triple every
`urlsplit` produces; it is exactly what re-splitting the reassembled URL
needs in order to recover the same triple. -/
structure CanonInv (s n p : List Char) : Prop where
  scheme_ok : s = [] ∨ (s ≠ [] ∧ (s.headD ' ').isAlpha = true
      ∧ s.all isSchemeChar = true ∧ s.map Char.toLower = s)
  netloc_ok : ∀ c ∈ n, netlocDelim c = false
  no_hash : '#' ∉ p
  no_query : '?' ∉ p
  trn_n : noTRN n
  trn_p : noTRN p
  slash_p : n ≠ [] → p = [] ∨ p.take 1 = ['/']
  plain_p : s = [] → n = [] →
      schemeSplit p = ([], p) ∧ (p = [] ∨ 32 < (p.headD ' ').toNat)

theorem stages_inv (U : List Char) (hT : noTRN U)
    (hH : U = [] ∨ 32 < (U.headD ' ').toNat) :
    CanonInv (splitStages U).scheme (splitStages U).netloc (splitStages U).path := by
  rcases hsp : schemeSplit U with ⟨s, u1⟩
  have hs_cases := schemeSplit_snd_cases U
  rw [hsp] at hs_cases
  dsimp only at hs_cases
  have hcase : (s = [] ∧ u1 = U)
      ∨ (s ≠ [] ∧ (s.headD ' ').isAlpha = true ∧ s.all isSchemeChar = true
          ∧ s.map Char.toLower = s ∧ ∃ i, u1 = U.drop (i + 1)) := by
    rcases hs_cases with heq | hr
    · left
      exact ⟨congrArg Prod.fst heq, congrArg Prod.snd heq⟩
    · right
      exact hr
  have hu1sub : ∀ c ∈ u1, c ∈ U := by
    rcases hcase with ⟨_, rfl⟩ | ⟨_, _, _, _, i, rfl⟩
    · exact fun c hc => hc
    · exact fun c hc => List.drop_subset _ _ hc
  simp only [splitStages, hsp]
  by_cases hb : u1.take 2 = ['/', '/']
  · rw [if_pos hb]
    simp only [splitNetloc2]
    obtain ⟨hnoH3, k1, hk1⟩ :=
      splitFirst_fst_facts '#' ((u1.drop 2).dropWhile (fun c => !netlocDelim c))
    rw [hk1] at hnoH3 ⊢
    obtain ⟨hnoQ3, k2, hk2⟩ := splitFirst_fst_facts '?'
      ((((u1.drop 2).dropWhile (fun c => !netlocDelim c)).take k1))
    rw [hk2] at hnoQ3 ⊢
    rw [List.take_take] at hnoQ3 ⊢
    -- abbreviations
    have hu2sub : ∀ c ∈ (u1.drop 2).dropWhile (fun c => !netlocDelim c), c ∈ U :=
      fun c hc => hu1sub c (List.drop_subset _ _ (mem_dropWhile_mem hc))
    have hpsub : ∀ c ∈ ((u1.drop 2).dropWhile (fun c => !netlocDelim c)).take (min k2 k1),
        c ∈ U := fun c hc => hu2sub c (List.take_subset _ _ hc)
    have hu2head : (u1.drop 2).dropWhile (fun c => !netlocDelim c) = []
        ∨ ∃ a t, (u1.drop 2).dropWhile (fun c => !netlocDelim c) = a :: t
            ∧ netlocDelim a = true := by
      cases hu2 : (u1.drop 2).dropWhile (fun c => !netlocDelim c) with
      | nil => exact Or.inl rfl
      | cons a t =>
        right
        refine ⟨a, t, rfl, ?_⟩
        have := dropWhile_head_false (p := fun c : Char => !netlocDelim c) hu2
        simpa using this
    have hpshape : ((u1.drop 2).dropWhile (fun c => !netlocDelim c)).take (min k2 k1) = []
        ∨ (((u1.drop 2).dropWhile (fun c => !netlocDelim c)).take (min k2 k1)).take 1
            = ['/'] := by
      rcases hu2head with h0 | ⟨a, t, ha, hd⟩
      · left
        rw [h0, List.take_nil]
      · cases hk : min k2 k1 with
        | zero => exact Or.inl (List.take_zero _)
        | succ m =>
          rw [ha, List.take_succ_cons]
          have hdelim : a = '/' ∨ a = '?' ∨ a = '#' := by
            rw [netlocDelim] at hd
            simp only [Bool.or_eq_true, beq_iff_eq] at hd
            tauto
          rcases hdelim with rfl | rfl | rfl
          · right
            rfl
          · exfalso
            refine hnoQ3 ?_
            rw [ha, hk, List.take_succ_cons]
            exact List.mem_cons_self _ _
          · exfalso
            refine hnoH3 ?_
            have hmm : '#' ∈ ((u1.drop 2).dropWhile (fun c => !netlocDelim c)).take (min k2 k1) := by
              rw [ha, hk, List.take_succ_cons]
              exact List.mem_cons_self _ _
            rw [← List.take_take] at hmm
            exact List.take_subset _ _ hmm
    refine ⟨?_, ?_, ?_, ?_, ?_, ?_, ?_, ?_⟩
    · -- scheme_ok
      rcases hcase with ⟨h0, _⟩ | ⟨h1, h2, h3, h4, _⟩
      · exact Or.inl h0
      · exact Or.inr ⟨h1, h2, h3, h4⟩
    · -- netloc_ok
      intro c hc
      have := mem_takeWhile_pred hc
      simpa using this
    · -- no_hash: members of the take are members of the take k1
      intro hm
      rw [← List.take_take] at hm
      exact hnoH3 (List.take_subset _ _ hm)
    · exact hnoQ3
    · -- trn_n
      intro c hc
      exact hT c (hu1sub c (List.drop_subset _ _ (mem_takeWhile_mem hc)))
    · -- trn_p
      intro c hc
      exact hT c (hpsub c hc)
    · -- slash_p
      intro _
      exact hpshape
    · -- plain_p
      intro hs0 hn0
      have hu2eq : (u1.drop 2).dropWhile (fun c => !netlocDelim c) = u1.drop 2 :=
        dropWhile_of_takeWhile_nil hn0
      have hsplit : schemeSplit
          (((u1.drop 2).dropWhile (fun c => !netlocDelim c)).take (min k2 k1))
          = ([], ((u1.drop 2).dropWhile (fun c => !netlocDelim c)).take (min k2 k1)) := by
        rcases hpshape with h0 | h1
        · rw [h0]
          exact schemeSplit_none rfl
        · refine schemeSplit_of_head_not_alpha ?_
          cases hp : ((u1.drop 2).dropWhile (fun c => !netlocDelim c)).take (min k2 k1) with
          | nil => rw [hp] at h1; cases h1
          | cons a t =>
            rw [hp] at h1
            rw [List.take_succ_cons] at h1
            have : a = '/' := (List.cons.injEq _ _ _ _).mp h1 |>.1
            subst this
            rfl
      refine ⟨hsplit, ?_⟩
      rcases hpshape with h0 | h1
      · exact Or.inl h0
      · right
        cases hp : ((u1.drop 2).dropWhile (fun c => !netlocDelim c)).take (min k2 k1) with
        | nil => rw [hp] at h1; cases h1
        | cons a t =>
          rw [hp] at h1
          rw [List.take_succ_cons] at h1
          have : a = '/' := (List.cons.injEq _ _ _ _).mp h1 |>.1
          subst this
          show 32 < ('/').toNat
          decide
  · rw [if_neg hb]
    dsimp only
    obtain ⟨hnoH3, k1, hk1⟩ := splitFirst_fst_facts '#' u1
    rw [hk1] at hnoH3 ⊢
    obtain ⟨hnoQ3, k2, hk2⟩ := splitFirst_fst_facts '?' (u1.take k1)
    rw [hk2] at hnoQ3 ⊢
    rw [List.take_take] at hnoQ3 ⊢
    refine ⟨?_, ?_, ?_, ?_, ?_, ?_, ?_, ?_⟩
    · rcases hcase with ⟨h0, _⟩ | ⟨h1, h2, h3, h4, _⟩
      · exact Or.inl h0
      · exact Or.inr ⟨h1, h2, h3, h4⟩
    · intro c hc
      cases hc
    · intro hm
      rw [← List.take_take] at hm
      exact hnoH3 (List.take_subset _ _ hm)
    · exact hnoQ3
    · intro c hc
      cases hc
    · intro c hc
      exact hT c (hu1sub c (List.take_subset _ _ hc))
    · intro h0
      exact absurd rfl h0
    · intro hs0 _
      have hu1U : u1 = U := by
        rcases hcase with ⟨_, h⟩ | ⟨h1, _⟩
        · exact h
        · exact absurd hs0 h1
      subst hu1U
      have hUsplit : schemeSplit u1 = ([], u1) := by
        have : (schemeSplit u1).1 = [] := by
          rw [hsp]
          exact hs0
        exact schemeSplit_fst_nil this
      refine ⟨schemeSplit_take hUsplit _, ?_⟩
      cases hp : u1.take (min k2 k1) with
      | nil => exact Or.inl rfl
      | cons a t =>
        right
        have h3 : (a :: t).headD ' ' = u1.headD ' ' := by
          rw [← hp]
          exact headD_take ' ' (by rw [hp]; exact List.cons_ne_nil _ _)
        rw [h3]
        rcases hH with h0 | h0
        · exfalso
          rw [h0, List.take_nil] at hp
          cases hp
        · exact h0

theorem np_eq {n p : List Char} (u1 : List Char)
    (hcase : (u1 = '/' :: '/' :: (n ++ p) ∧ (∀ c ∈ n, netlocDelim c = false)
          ∧ (p = [] ∨ p.take 1 = ['/']))
        ∨ (u1 = p ∧ n = [] ∧ ¬ p.take 2 = ['/', '/'])) :
    (if u1.take 2 = ['/', '/'] then splitNetloc2 u1 else ([], u1)) = (n, p) := by
  rcases hcase with ⟨rfl, hn, hph⟩ | ⟨rfl, rfl, hp2⟩
  · rw [if_pos (show ('/' :: '/' :: (n ++ p)).take 2 = ['/', '/'] from rfl)]
    simp only [splitNetloc2]
    have hpredn : ∀ c ∈ n, (!netlocDelim c) = true := by
      intro c hc
      rw [hn c hc]
      rfl
    have hdrop2 : ('/' :: '/' :: (n ++ p)).drop 2 = n ++ p := rfl
    rw [hdrop2, takeWhile_append_all p hpredn, dropWhile_append_all p hpredn]
    rcases hph with h0 | h1
    · subst h0
      rw [List.takeWhile_nil, List.dropWhile_nil, List.append_nil]
    · cases p with
      | nil =>
        rw [List.takeWhile_nil, List.dropWhile_nil, List.append_nil]
      | cons a t =>
        rw [List.take_succ_cons] at h1
        have ha : a = '/' := ((List.cons.injEq _ _ _ _).mp h1).1
        subst ha
        rw [List.takeWhile_cons, if_neg (by decide), List.append_nil,
          List.dropWhile_cons, if_neg (by decide)]
  · rw [if_neg hp2]

theorem canonInv_unsplit {s n p : List Char} (h : CanonInv s n p) :
    urlsplit (urlunsplit_noqf s n p) = ⟨s, n, p, [], []⟩ := by
  obtain ⟨hs, hn, hnoH, hnoQ, htn, htp, hnp, hplain⟩ := h
  have hsfH : splitFirst '#' p = (p, []) := splitFirst_of_not_mem hnoH
  have hsfQ : splitFirst '?' p = (p, []) := splitFirst_of_not_mem hnoQ
  by_cases hnb : n ≠ [] ∨ p.take 2 = ['/', '/']
  · -- the `//`-emitting branch of urlunsplit
    have hph : p = [] ∨ p.take 1 = ['/'] := by
      rcases hnb with hn1 | hp2
      · exact hnp hn1
      · right
        cases p with
        | nil => rw [List.take_nil] at hp2; cases hp2
        | cons a t =>
          rw [List.take_succ_cons] at hp2
          have ha : a = '/' := ((List.cons.injEq _ _ _ _).mp hp2).1
          subst ha
          rfl
    have hins : (if p ≠ [] ∧ p.take 1 ≠ ['/'] then '/' :: p else p) = p := by
      rcases hph with h0 | h1
      · rw [if_neg]
        rintro ⟨hne, _⟩
        exact hne h0
      · rw [if_neg]
        rintro ⟨_, hne⟩
        exact hne h1
    have hv : urlunsplit_noqf s n p
        = (if s ≠ [] then s ++ ':' :: ('/' :: '/' :: (n ++ p))
           else ('/' :: '/' :: (n ++ p))) := by
      simp only [urlunsplit_noqf]
      rw [if_pos hnb, hins]
      rfl
    have hrestTRN : noTRN ('/' :: '/' :: (n ++ p)) := by
      intro c hc
      rcases List.mem_cons.mp hc with rfl | hc
      · decide
      rcases List.mem_cons.mp hc with rfl | hc
      · decide
      rcases List.mem_append.mp hc with hcn | hcp
      · exact htn c hcn
      · exact htp c hcp
    have hnpstage := np_eq (n := n) (p := p) ('/' :: '/' :: (n ++ p))
      (Or.inl ⟨rfl, hn, hph⟩)
    by_cases hse : s = []
    · subst hse
      rw [hv, if_neg (by simp)]
      rw [urlsplit, cleanUrl_eq_self hrestTRN (Or.inr (by
        show 32 < ('/').toNat
        decide))]
      simp only [splitStages]
      rw [schemeSplit_of_head_not_alpha (by
        show ('/').isAlpha = false
        decide)]
      dsimp only
      rw [hnpstage]
      dsimp only
      rw [hsfH]
      dsimp only
      rw [hsfQ]
    · obtain ⟨hne, hal, hsc, hlow⟩ := hs.resolve_left hse
      rw [hv, if_pos hse]
      have hvTRN : noTRN (s ++ ':' :: ('/' :: '/' :: (n ++ p))) := by
        intro c hc
        rcases List.mem_append.mp hc with hcs | hcr
        · exact schemeChar_not_trn (List.all_eq_true.mp hsc _ hcs)
        · rcases List.mem_cons.mp hcr with rfl | hcr
          · decide
          · exact hrestTRN c hcr
      have hvhead : 32 < ((s ++ ':' :: ('/' :: '/' :: (n ++ p))).headD ' ').toNat := by
        have hh : (s ++ ':' :: ('/' :: '/' :: (n ++ p))).headD ' ' = s.headD ' ' := by
          cases s with
          | nil => exact absurd rfl hne
          | cons a t => rfl
        rw [hh]
        exact alpha_toNat_gt_32 hal
      rw [urlsplit, cleanUrl_eq_self hvTRN (Or.inr hvhead)]
      simp only [splitStages]
      rw [schemeSplit_scheme _ hne hal hsc hlow]
      dsimp only
      rw [hnpstage]
      dsimp only
      rw [hsfH]
      dsimp only
      rw [hsfQ]
  · -- plain-path branch of urlunsplit
    have hn0 : n = [] := by
      by_contra hc
      exact hnb (Or.inl hc)
    have hp2 : ¬ p.take 2 = ['/', '/'] := by
      intro hc
      exact hnb (Or.inr hc)
    have hv : urlunsplit_noqf s n p = (if s ≠ [] then s ++ ':' :: p else p) := by
      simp only [urlunsplit_noqf]
      rw [if_neg hnb]
    have hnpstage := np_eq (n := n) (p := p) p (Or.inr ⟨rfl, hn0, hp2⟩)
    by_cases hse : s = []
    · subst hse
      obtain ⟨hschp, hheadp⟩ := hplain rfl hn0
      rw [hv, if_neg (by simp)]
      rw [urlsplit, cleanUrl_eq_self htp hheadp]
      simp only [splitStages]
      rw [hschp]
      dsimp only
      rw [hnpstage]
      dsimp only
      rw [hsfH]
      dsimp only
      rw [hsfQ]
    · obtain ⟨hne, hal, hsc, hlow⟩ := hs.resolve_left hse
      rw [hv, if_pos hse]
      have hvTRN : noTRN (s ++ ':' :: p) := by
        intro c hc
        rcases List.mem_append.mp hc with hcs | hcr
        · exact schemeChar_not_trn (List.all_eq_true.mp hsc _ hcs)
        · rcases List.mem_cons.mp hcr with rfl | hcr
          · decide
          · exact htp c hcr
      have hvhead : 32 < ((s ++ ':' :: p).headD ' ').toNat := by
        have hh : (s ++ ':' :: p).headD ' ' = s.headD ' ' := by
          cases s with
          | nil => exact absurd rfl hne
          | cons a t => rfl
        rw [hh]
        exact alpha_toNat_gt_32 hal
      rw [urlsplit, cleanUrl_eq_self hvTRN (Or.inr hvhead)]
      simp only [splitStages]
      rw [schemeSplit_scheme _ hne hal hsc hlow]
      dsimp only
      rw [hnpstage]
      dsimp only
      rw [hsfH]
      dsimp only
      rw [hsfQ]

/-- Every `urlsplit` result satisfies the canonical-triple invariant. -/
theorem urlsplit_inv (u : List Char) :
    CanonInv (urlsplit u).scheme (urlsplit u).netloc (urlsplit u).path :=
  stages_inv (cleanUrl u) (cleanUrl_noTRN u) (cleanUrl_headOK u)

theorem canonicalize_idem (u : List Char) :
    canonicalize_url_chars (canonicalize_url_chars u) = canonicalize_url_chars u := by
  by_cases hu : u = []
  · subst hu
    rfl
  · have hInv := urlsplit_inv u
    have hcan : canonicalize_url_chars u
        = urlunsplit_noqf (urlsplit u).scheme (urlsplit u).netloc (urlsplit u).path := by
      rw [canonicalize_url_chars, if_neg hu]
    rw [hcan]
    by_cases hv : urlunsplit_noqf (urlsplit u).scheme (urlsplit u).netloc
        (urlsplit u).path = []
    · rw [hv]
      rfl
    · rw [canonicalize_url_chars, if_neg hv]
      dsimp only
      rw [canonInv_unsplit hInv]

end UrlParse

/-! ### Likes-feed crawl — `src/data_processing/get_user_liked_reviews.py` -/

namespace GetUserLikedReviews

/-- A fetched likes-feed page, reduced to what the crawl loop reads: the
response text, the set of review permalinks extracted by
`_extract_review_urls_from_likes_page` (anchor scan + raw regex scan, likes
sub-pages dropped), and the absolute next-page URL found by
`_find_next_page_url` (`none` when no selector matches). -/
structure LikesPage where
  raw : String
  reviewUrls : List String
  nextHref : Option String

/-- The finite page graph a crawl runs against: URL-keyed pages; a URL
absent from the list is a failed fetch. -/
def lookupPage (pages : List (String × LikesPage)) (u : String) : Option LikesPage :=
  (pages.find? (fun kv => kv.1 == u)).map (·.2)

theorem length_filter_le_of_imp {α : Type} (l : List α) (p q : α → Bool)
    (h : ∀ a, p a = true → q a = true) :
    (l.filter p).length ≤ (l.filter q).length := by
  induction l with
  | nil => exact Nat.le_refl 0
  | cons a as ih =>
    by_cases hp : p a = true
    · rw [List.filter_cons_of_pos hp, List.filter_cons_of_pos (h a hp)]
      exact Nat.succ_le_succ ih
    · rw [List.filter_cons_of_neg (by simpa using hp)]
      by_cases hq : q a = true
      · rw [List.filter_cons_of_pos hq]
        exact Nat.le_succ_of_le ih
      · rw [List.filter_cons_of_neg (by simpa using hq)]
        exact ih

theorem length_filter_unseen_lt {α : Type} [DecidableEq α]
    (keys : List α) (cur : α) (seen : List α)
    (hk : cur ∈ keys) (hs : cur ∉ seen) :
    (keys.filter (fun k => decide (¬ k ∈ cur :: seen))).length <
      (keys.filter (fun k => decide (¬ k ∈ seen))).length := by
  induction keys with
  | nil => cases hk
  | cons a as ih =>
    by_cases ha : a ∈ cur :: seen
    · rw [List.filter_cons_of_neg (by simp only [decide_eq_true_eq, Decidable.not_not]; exact ha)]
      by_cases ha2 : a ∈ seen
      · rw [List.filter_cons_of_neg (by simp only [decide_eq_true_eq, Decidable.not_not]; exact ha2)]
        have hcur : cur ∈ as := by
          rcases List.mem_cons.mp hk with rfl | h
          · exact absurd ha2 hs
          · exact h
        exact ih hcur
      · have heq : a = cur := by
          rcases List.mem_cons.mp ha with h | h
          · exact h
          · exact absurd h ha2
        rw [List.filter_cons_of_pos (by simpa using ha2)]
        have hle := length_filter_le_of_imp as
          (fun k => decide (¬ k ∈ cur :: seen)) (fun k => decide (¬ k ∈ seen))
          (by
            intro b hb
            simp only [decide_eq_true_eq, List.mem_cons] at hb ⊢
            exact fun hmem => hb (Or.inr hmem))
        exact Nat.lt_succ_of_le hle
    · have ha2 : a ∉ seen := fun h => ha (List.mem_cons_of_mem _ h)
      have hcur : cur ∈ as := by
        rcases List.mem_cons.mp hk with rfl | h
        · exact absurd (List.mem_cons_self _ _) ha
        · exact h
      rw [List.filter_cons_of_pos (by simpa using ha),
        List.filter_cons_of_pos (by simpa using ha2)]
      exact Nat.succ_lt_succ (ih hcur)

theorem mem_keys_of_lookup (pages : List (String × LikesPage)) (u : String)
    (pg : LikesPage) (h : lookupPage pages u = some pg) :
    u ∈ pages.map Prod.fst := by
  induction pages with
  | nil => simp [lookupPage] at h
  | cons kv rest ih =>
    by_cases hk : (kv.1 == u) = true
    · exact List.mem_cons.mpr (Or.inl (eq_of_beq hk).symm)
    · rw [lookupPage, List.find?_cons_of_neg _ (by simpa using hk)] at h
      exact List.mem_cons_of_mem _ (ih h)

/-- The `while` loop of `get_all_likes_review_urls` (get_user_liked_reviews.py
lines 276-291) over a finite page graph.  State: the current URL (`none`
when no next link was found), the `seen_pages` set and the accumulated
`review_urls`.  Returns the trace of URLs actually fetched and the final
accumulation; each iteration marks the current URL seen, stops on a failed
or empty fetch, otherwise unions the page's review URLs and follows the
canonicalized next link. -/
def crawl_likes (pages : List (String × LikesPage)) :
    Option String → List String → List String → List String × List String
  | none, _, acc => ([], acc)
  | some cur, seen, acc =>
    if h : cur ∈ seen then ([], acc)
    else
      match hl : lookupPage pages cur with
      | none => ([cur], acc)
      | some pg =>
        if pg.raw = "" then ([cur], acc)
        else
          let r := crawl_likes pages (pg.nextHref.map UrlParse.canonicalize_url)
            (cur :: seen) (acc ++ pg.reviewUrls)
          (cur :: r.1, r.2)
termination_by o seen _ =>
  ((pages.map Prod.fst).filter (fun k => decide (¬ k ∈ seen))).length
decreasing_by
  exact length_filter_unseen_lt _ cur seen (mem_keys_of_lookup pages cur pg hl) h

theorem crawl_likes_none_eq (pages : List (String × LikesPage))
    (seen acc : List String) :
    crawl_likes pages none seen acc = ([], acc) := by
  rw [crawl_likes]

theorem crawl_likes_seen_eq (pages : List (String × LikesPage))
    (cur : String) (seen acc : List String) (h : cur ∈ seen) :
    crawl_likes pages (some cur) seen acc = ([], acc) := by
  rw [crawl_likes, dif_pos h]

theorem crawl_likes_miss_eq (pages : List (String × LikesPage))
    (cur : String) (seen acc : List String) (h : cur ∉ seen)
    (hl : lookupPage pages cur = none) :
    crawl_likes pages (some cur) seen acc = ([cur], acc) := by
  rw [crawl_likes, dif_neg h]
  split
  · rfl
  · next pg heq =>
    rw [hl] at heq
    cases heq

theorem crawl_likes_empty_eq (pages : List (String × LikesPage))
    (cur : String) (seen acc : List String) (pg : LikesPage) (h : cur ∉ seen)
    (hl : lookupPage pages cur = some pg) (hr : pg.raw = "") :
    crawl_likes pages (some cur) seen acc = ([cur], acc) := by
  rw [crawl_likes, dif_neg h]
  split
  · rfl
  · next pg' heq =>
    rw [hl] at heq
    cases heq
    rw [if_pos hr]

theorem crawl_likes_step_eq (pages : List (String × LikesPage))
    (cur : String) (seen acc : List String) (pg : LikesPage) (h : cur ∉ seen)
    (hl : lookupPage pages cur = some pg) (hr : pg.raw ≠ "") :
    crawl_likes pages (some cur) seen acc
      = (cur :: (crawl_likes pages (pg.nextHref.map UrlParse.canonicalize_url)
            (cur :: seen) (acc ++ pg.reviewUrls)).1,
         (crawl_likes pages (pg.nextHref.map UrlParse.canonicalize_url)
            (cur :: seen) (acc ++ pg.reviewUrls)).2) := by
  rw [crawl_likes, dif_neg h]
  split
  · next heq =>
    rw [hl] at heq
    cases heq
  · next pg' heq =>
    rw [hl] at heq
    cases heq
    rw [if_neg hr]

/-- Invariant of the crawl loop: the trace of fetched URLs is
duplicate-free and disjoint from the incoming seen-set (proved by strong
induction on the number of page-graph keys not yet seen). -/
theorem crawl_likes_trace_inv (pages : List (String × LikesPage)) :
    ∀ (n : ℕ) (o : Option String) (seen acc : List String),
      ((pages.map Prod.fst).filter (fun k => decide (¬ k ∈ seen))).length ≤ n →
      (crawl_likes pages o seen acc).1.Nodup
        ∧ ∀ u ∈ (crawl_likes pages o seen acc).1, u ∉ seen := by
  intro n
  induction n using Nat.strong_induction_on with
  | _ n ih =>
    intro o seen acc hn
    cases o with
    | none =>
      rw [crawl_likes_none_eq]
      exact ⟨List.nodup_nil, by intro u hu; cases hu⟩
    | some cur =>
      by_cases hs : cur ∈ seen
      · rw [crawl_likes_seen_eq _ _ _ _ hs]
        exact ⟨List.nodup_nil, by intro u hu; cases hu⟩
      · cases hl : lookupPage pages cur with
        | none =>
          rw [crawl_likes_miss_eq _ _ _ _ hs hl]
          refine ⟨List.nodup_cons.mpr ⟨List.not_mem_nil _, List.nodup_nil⟩, ?_⟩
          intro u hu
          rcases List.mem_cons.mp hu with rfl | hu
          · exact hs
          · cases hu
        | some pg =>
          by_cases hr : pg.raw = ""
          · rw [crawl_likes_empty_eq _ _ _ _ pg hs hl hr]
            refine ⟨List.nodup_cons.mpr ⟨List.not_mem_nil _, List.nodup_nil⟩, ?_⟩
            intro u hu
            rcases List.mem_cons.mp hu with rfl | hu
            · exact hs
            · cases hu
          · rw [crawl_likes_step_eq _ _ _ _ pg hs hl hr]
            have hlt := length_filter_unseen_lt (pages.map Prod.fst) cur seen
              (mem_keys_of_lookup pages cur pg hl) hs
            obtain ⟨hnd, hdisj⟩ := ih _ (Nat.lt_of_lt_of_le hlt hn)
              (pg.nextHref.map UrlParse.canonicalize_url) (cur :: seen)
              (acc ++ pg.reviewUrls) (Nat.le_refl _)
            constructor
            · refine List.nodup_cons.mpr ⟨?_, hnd⟩
              intro hcu
              exact (hdisj cur hcu) (List.mem_cons_self _ _)
            · intro u hu
              rcases List.mem_cons.mp hu with rfl | hu
              · exact hs
              · exact fun husn => (hdisj u hu) (List.mem_cons_of_mem _ husn)

/-- `get_all_likes_review_urls` (get_user_liked_reviews.py lines 272-293):
start at `/{username}/likes/reviews/`, run the crawl loop, return the
sorted set of collected review URLs. -/
def get_all_likes_review_urls (pages : List (String × LikesPage))
    (username : String) : List String :=
  sortedDedupStr
    (crawl_likes pages
      (some ("https://www.letterboxd.com/" ++ username ++ "/likes/reviews/"))
      [] []).2

/-- Synthetic cyclic likes feed: page 1 of user `u`. -/
def cycleStart : String := "https://www.letterboxd.com/u/likes/reviews/"

/-- Synthetic cyclic likes feed: page 2, whose next link points back at
page 1 (with a query string the canonicalizer strips). -/
def cyclePage2 : String := "https://www.letterboxd.com/u/likes/reviews/page/2/"

/-- The two-page graph with a next-link cycle `page 1 → page 2 → page 1`. -/
def cyclePages : List (String × LikesPage) :=
  [(cycleStart,
    ⟨"h", ["https://www.letterboxd.com/x/film/f1/"], some cyclePage2⟩),
   (cyclePage2,
    ⟨"h", ["https://www.letterboxd.com/y/film/f2/"],
     some "https://www.letterboxd.com/u/likes/reviews/?esi=1"⟩)]

end GetUserLikedReviews

/-! ### Per-film merge — `src/data_processing/get_user_film.py` -/

/-- One ratings-feed record as produced by the ratings scraper (a dict with
`movie_id`, `rating_val`, `liked`, `has_review`). -/
structure FilmRec where
  movie_id : String
  rating_val : ℚ
  liked : Bool
  has_review : Bool
deriving DecidableEq

/-- One merged per-film status record. -/
structure UserFilmStatus where
  movie_id : String
  watched : Bool
  in_watchlist : Bool
  rating_val : Option ℚ
  liked : Option Bool
  has_review : Bool
deriving DecidableEq

namespace GetUserFilm

/-- Username validation regex `^[A-Za-z0-9_]{1,30}$` (get_user_film.py line 7). -/
def usernameValid (u : String) : Bool :=
  decide (1 ≤ u.length ∧ u.length ≤ 30) && u.data.all (fun c => c.isAlphanum || c == '_')

/-- The merge loop of `get_user_film` (get_user_film.py lines 22-48): one
watched record per ratings record, then one watchlist record per watchlist
entry. -/
def get_user_film_merge (films : List FilmRec) (watchlist : List WatchItem) :
    List UserFilmStatus :=
  films.map (fun f => ⟨f.movie_id, true, false, some f.rating_val, some f.liked, f.has_review⟩)
    ++ watchlist.map (fun w => ⟨w.movie_id, false, true, none, none, false⟩)

/-- `get_user_film` (get_user_film.py lines 10-50) with the two scrape
results passed as data: username validation, feed-status propagation, then
the merge loop. -/
def get_user_film (username : String)
    (ratingsResult : List FilmRec × String)
    (watchResult : List WatchItem × String) : List UserFilmStatus × String :=
  if !usernameValid username then ([], "bad_username")
  else if ratingsResult.2 ≠ "success" then ([], ratingsResult.2)
  else if watchResult.2 ≠ "success" then ([], watchResult.2)
  else (get_user_film_merge ratingsResult.1 watchResult.1, "success")

end GetUserFilm

/-! ## Claim theorems -/

/-- C1 counterexample: the ratings-feed fetch helper does not contain a
connection-phase error — `session.get` sits outside the `try/except`
(get_user_ratings.py line 27), so the exception propagates to the caller
instead of an absent result being returned. -/
theorem c1_fetch_propagates_conn_error :
    GetUserRatings.fetch NetEvent.connError = Except.error () := rfl

/-- C1 (amended): the mutuals, profile and liked-reviews fetch helpers
contain every fetch error and return an absent body; the ratings and
watchlist fetch helpers contain only errors raised while reading the
response body — an error raised by the GET call itself propagates. -/
theorem c1_fetch_error_containment :
    (∀ ev, ∃ r, GetUserMutuals.fetch ev = Except.ok r)
    ∧ (∀ ev, ∃ r, GetUser.fetch ev = Except.ok r)
    ∧ (∀ ev, ∃ r, GetUserLikedReviews.fetch_text ev = Except.ok r)
    ∧ (∀ b, GetUserRatings.fetch (NetEvent.ok b) = Except.ok (some b))
    ∧ GetUserRatings.fetch NetEvent.readError = Except.ok none
    ∧ GetUserRatings.fetch NetEvent.connError = Except.error ()
    ∧ (∀ b, GetUserWatchlist.fetch (NetEvent.ok b) = Except.ok (some b))
    ∧ GetUserWatchlist.fetch NetEvent.readError = Except.ok none
    ∧ GetUserWatchlist.fetch NetEvent.connError = Except.error () := by
  refine ⟨fun ev => ?_, fun ev => ?_, fun ev => ?_, fun b => rfl, rfl, rfl,
    fun b => rfl, rfl, rfl⟩ <;> cases ev <;> exact ⟨_, rfl⟩

/-- C2 counterexample: when page 1 reports "3" as the maximum page-link
number, the gather phase of `get_all_people` issues 3 further fetches (it
re-fetches page 1 besides pages 2 and 3), not 2; and when page 1 reports no
page links and no rel=last, one further fetch (of page 1 again) is still
issued, not none. -/
theorem c2_extra_page1_fetch :
    (GetUserMutuals.people_fetch_urls "alice" "followers"
        (GetUserMutuals.get_page_count_from_html ⟨"x", ["1", "2", "3"], none, [], []⟩)).length ≠ 2
    ∧ (GetUserMutuals.people_fetch_urls "alice" "followers"
        (GetUserMutuals.get_page_count_from_html ⟨"x", [], none, [], []⟩)).length ≠ 0 := by
  refine ⟨?_, ?_⟩ <;> decide

/-- C2 (amended): with "3" as maximum page-link number the page count is 3
and the gather phase fetches exactly the base URL (page 1, again) and pages
2 and 3; with no page links and no rel=last the count defaults to 1 and
exactly one fetch — the base URL again — is issued. -/
theorem c2_known_total_paginator (username kind : String) :
    GetUserMutuals.get_page_count_from_html ⟨"x", ["1", "2", "3"], none, [], []⟩ = 3
    ∧ GetUserMutuals.people_fetch_urls username kind 3
        = [GetUserMutuals.peopleBase username kind,
           GetUserMutuals.peoplePageUrl username kind 2,
           GetUserMutuals.peoplePageUrl username kind 3]
    ∧ GetUserMutuals.get_page_count_from_html ⟨"x", [], none, [], []⟩ = 1
    ∧ GetUserMutuals.people_fetch_urls username kind 1
        = [GetUserMutuals.peopleBase username kind] := by
  refine ⟨by decide, rfl, by decide, rfl⟩

/-- C3 counterexample: the mutuals feed (`get_all_people`) returns a bare
username list with no status value — on a page-1 body carrying the
"Page not found" marker it returns the same `[]` a successful crawl of an
empty followers page returns, so its caller receives no status distinct
from success. -/
theorem c3_mutuals_feed_has_no_status :
    GetUserMutuals.get_all_people
        (fun _ => some ⟨"Sorry - Page not found!", [], none, [], []⟩)
        "alice" "followers" = Except.ok []
    ∧ GetUserMutuals.get_all_people
        (fun _ => some ⟨"<html>nobody here</html>", [], none, [], []⟩)
        "alice" "followers" = Except.ok [] := by
  refine ⟨?_, ?_⟩ <;> rfl

/-- C3 (amended): on a page-1 body with the "not found" marker the
watchlist crawler short-circuits to `([], "user_not_found")` — a status
distinct from `"success"` — while the mutuals crawler short-circuits to an
empty list only, with no status channel at all. -/
theorem c3_not_found_short_circuit :
    GetUserWatchlist.get_watchlist_data
        ⟨some ⟨"Sorry - Page not found!", [], none, [], []⟩, fun _ => none⟩
      = ([], "user_not_found")
    ∧ "user_not_found" ≠ "success"
    ∧ GetUserWatchlist.get_watchlist_data
        ⟨some ⟨"<html>fine</html>", [], none, [], []⟩, fun _ => none⟩
      = ([], "success")
    ∧ GetUserMutuals.get_all_people
        (fun _ => some ⟨"oops - Page not found?", [], none, [], []⟩)
        "bob" "following" = Except.ok [] := by
  refine ⟨rfl, by decide, rfl, rfl⟩

/-- C9: the user-film merge emits one watched record per ratings record,
followed by one watchlist record (null rating) per watchlist record; no
identifier-level merge happens, so the output length is the sum of the
input lengths even when a film identifier occurs in both inputs. -/
theorem c9_get_user_film_merge (films : List FilmRec) (watchlist : List WatchItem) :
    (GetUserFilm.get_user_film_merge films watchlist).length
        = films.length + watchlist.length
    ∧ ((GetUserFilm.get_user_film_merge films watchlist).take films.length).map
          (fun s => (s.movie_id, s.watched, s.in_watchlist, s.rating_val, s.liked, s.has_review))
        = films.map (fun f => (f.movie_id, true, false, some f.rating_val, some f.liked, f.has_review))
    ∧ ((GetUserFilm.get_user_film_merge films watchlist).drop films.length).map
          (fun s => (s.movie_id, s.watched, s.in_watchlist, s.rating_val))
        = watchlist.map (fun w => (w.movie_id, false, true, (none : Option ℚ))) := by
  have hlen : (films.map (fun f : FilmRec =>
      (⟨f.movie_id, true, false, some f.rating_val, some f.liked, f.has_review⟩ :
        UserFilmStatus))).length = films.length := List.length_map _ _
  refine ⟨?_, ?_, ?_⟩
  · simp [GetUserFilm.get_user_film_merge]
  · rw [GetUserFilm.get_user_film_merge, ← hlen, List.take_left, List.map_map]
    rfl
  · rw [GetUserFilm.get_user_film_merge, ← hlen, List.drop_left, List.map_map]
    rfl

/-- C8: `get_mutuals` returns the sorted duplicate-free list of usernames
in both inputs (pure set intersection; the embedding is pure, so the inputs
are untouched), and on the spec's example returns `["b", "c"]`. -/
theorem c8_get_mutuals_intersection (followers following : List String) (u : String) :
    (u ∈ GetUserMutuals.get_mutuals followers following ↔ u ∈ followers ∧ u ∈ following)
    ∧ (GetUserMutuals.get_mutuals followers following).Pairwise (fun a b => strLeB a b = true)
    ∧ (GetUserMutuals.get_mutuals followers following).Nodup
    ∧ GetUserMutuals.get_mutuals ["a", "b", "c"] ["b", "c", "d"] = ["b", "c"] := by
  refine ⟨?_, pairwise_sortStrings _, nodup_sortStrings (List.nodup_dedup _), by decide⟩
  rw [GetUserMutuals.get_mutuals, mem_sortStrings, List.mem_dedup, List.mem_filter]
  simp

theorem data_append (a b : String) : (a ++ b).data = a.data ++ b.data := by
  cases a
  cases b
  rfl

theorem parse_rating_from_class_rated (s : String) :
    GetUserRatings.parse_rating_from_class ["rated-" ++ s]
      = match pyParseInt s.data with
        | none => -1
        | some n => if n < 5 ∨ 50 < n ∨ n % 5 ≠ 0 then -1 else (n : ℚ) / 10 := by
  have hd : ("rated-" ++ s).data = "rated-".data ++ s.data := data_append _ _
  have htake : ("rated-" ++ s).data.take 6 = "rated-".data := by
    rw [hd]
    exact List.take_left' rfl
  have hdrop : ("rated-" ++ s).data.drop 6 = s.data := by
    rw [hd]
    exact List.drop_left' rfl
  have hp : (("rated-" ++ s).data.take 6 == "rated-".data) = true := by
    rw [htake]
    exact beq_self_eq_true _
  simp only [GetUserRatings.parse_rating_from_class, List.find?, hp, hdrop]

/-- C6: for a class string `"rated-" ++ s` whose suffix parses as the
integer `n`, the class parser returns `n / 10` exactly when
`5 ≤ n ≤ 50` and `5 ∣ n` (a value in `[0.5, 5]`) and the sentinel -1
otherwise; a non-integer suffix yields -1; and the ratings-feed and
review-detail copies of the parser are the same function. -/
theorem c6_parse_rating_from_class_spec :
    (∀ (s : String) (n : Int), pyParseInt s.data = some n →
        GetUserRatings.parse_rating_from_class ["rated-" ++ s]
          = if 5 ≤ n ∧ n ≤ 50 ∧ n % 5 = 0 then (n : ℚ) / 10 else -1)
    ∧ (∀ s : String, pyParseInt s.data = none →
        GetUserRatings.parse_rating_from_class ["rated-" ++ s] = -1)
    ∧ (∀ n : Int, 5 ≤ n → n ≤ 50 →
        (1 / 2 : ℚ) ≤ (n : ℚ) / 10 ∧ (n : ℚ) / 10 ≤ 5)
    ∧ (∀ cl, GetUserRatings.parse_rating_from_class cl
          = GetUserLikedReviews.parse_rating_from_class cl) := by
  refine ⟨?_, ?_, ?_, fun cl => rfl⟩
  · intro s n h
    rw [parse_rating_from_class_rated, h]
    show (if n < 5 ∨ 50 < n ∨ n % 5 ≠ 0 then (-1 : ℚ) else (n : ℚ) / 10) = _
    by_cases hc : 5 ≤ n ∧ n ≤ 50 ∧ n % 5 = 0
    · rw [if_pos hc, if_neg (by omega)]
    · rw [if_neg hc, if_pos (by omega)]
  · intro s h
    rw [parse_rating_from_class_rated, h]
  · intro n h5 h50
    have l5 : (5 : ℚ) ≤ (n : ℚ) := by exact_mod_cast h5
    have l50 : (n : ℚ) ≤ 50 := by exact_mod_cast h50
    constructor <;> linarith

/-- C6 witness: the main theorem applied at the concrete class suffix
`"35"`, which parses as 35 and yields the rating 3.5. -/
theorem c6_parse_rating_witness :
    pyParseInt "35".data = some 35
    ∧ GetUserRatings.parse_rating_from_class ["rated-" ++ "35"] = 7 / 2 := by
  refine ⟨rfl, ?_⟩
  rw [c6_parse_rating_from_class_spec.1 "35" 35 rfl, if_pos (by decide)]
  norm_num

theorem pyRound1_of_int (x : ℚ) (n : Int) (h : x * 10 = (n : ℚ)) :
    pyRound1 x = (n : ℚ) / 10 := by
  simp only [pyRound1, pyRoundHalfEven, h, Int.floor_intCast, sub_self]
  rw [if_pos (by norm_num)]

theorem parse_rated5_eval : GetUserRatings.parse_rating_from_class ["rated-5"] = 1 / 2 := by
  rw [show ("rated-5" : String) = "rated-" ++ "5" from rfl, parse_rating_from_class_rated]
  show (if (5 : Int) < 5 ∨ 50 < (5 : Int) ∨ (5 : Int) % 5 ≠ 0
      then (-1 : ℚ) else ((5 : Int) : ℚ) / 10) = 1 / 2
  rw [if_neg (by omega)]
  norm_num

theorem parse_rated10_eval : GetUserRatings.parse_rating_from_class ["rated-10"] = 1 := by
  rw [show ("rated-10" : String) = "rated-" ++ "10" from rfl, parse_rating_from_class_rated]
  show (if (10 : Int) < 5 ∨ 50 < (10 : Int) ∨ (10 : Int) % 5 ≠ 0
      then (-1 : ℚ) else ((10 : Int) : ℚ) / 10) = 1
  rw [if_neg (by omega)]
  norm_num

/-- C10: the fraction-rescale in the ratings-feed parser applies to every
rating value in `[0, 1]`: a `rated-5` tile (half a star) is emitted as 2.5
and a `rated-10` tile (one star) as 5.0, while the sentinel -1 passes
through unchanged. -/
theorem c10_fraction_rescale :
    GetUserRatings.tile_rating_val ⟨some ⟨["rated-5"], ""⟩, none⟩ = 5 / 2
    ∧ GetUserRatings.tile_rating_val ⟨some ⟨["rated-10"], ""⟩, none⟩ = 5
    ∧ (∀ v : ℚ, 0 ≤ v → v ≤ 1 →
        GetUserRatings.normalize_possible_fraction v = pyRound1 (v * 5))
    ∧ GetUserRatings.normalize_possible_fraction (-1) = -1 := by
  refine ⟨?_, ?_, ?_, ?_⟩
  · simp only [GetUserRatings.tile_rating_val, parse_rated5_eval]
    rw [if_neg (by norm_num), if_neg (by norm_num),
      GetUserRatings.normalize_possible_fraction, if_pos (by norm_num),
      pyRound1_of_int _ 25 (by norm_num)]
    norm_num
  · simp only [GetUserRatings.tile_rating_val, parse_rated10_eval]
    rw [if_neg (by norm_num), if_neg (by norm_num),
      GetUserRatings.normalize_possible_fraction, if_pos (by norm_num),
      pyRound1_of_int _ 50 (by norm_num)]
    norm_num
  · intro v h0 h1
    rw [GetUserRatings.normalize_possible_fraction, if_pos ⟨h0, h1⟩]
  · rw [GetUserRatings.normalize_possible_fraction, if_neg (by norm_num)]

/-- C10 witness: the rescale equation applied at the concrete class-derived
value 0.5. -/
theorem c10_fraction_rescale_witness :
    GetUserRatings.normalize_possible_fraction (1 / 2) = pyRound1 (1 / 2 * 5) :=
  c10_fraction_rescale.2.2.1 (1 / 2) (by norm_num) (by norm_num)

/-- C4 counterexample: the glyph parser does not bound ratings by 5 — a
text of six star glyphs is parsed as 6.0, and the ratings-feed tile
pipeline emits it unchanged. -/
theorem c4_rating_above_five :
    GetUserRatings.parse_rating_text "★★★★★★" = 6
    ∧ GetUserRatings.tile_rating_val ⟨some ⟨[], "★★★★★★"⟩, none⟩ = 6
    ∧ ¬ ((6 : ℚ) ≤ 5) := by
  refine ⟨by decide, by decide, by norm_num⟩

/-- C7: the next-link crawl is a total function over every finite page
graph (the well-founded seen-set measure justifies the Lean definition) and
never fetches a URL twice; on the synthetic cyclic chain page1 → page2 →
page1 (the back link carrying a query string the canonicalizer strips) it
stops after fetching each page once, returning the union of the review URLs
collected before the cycle was detected. -/
theorem c7_crawl_cycle_guard :
    (∀ (pages : List (String × GetUserLikedReviews.LikesPage)) (start : String),
        (GetUserLikedReviews.crawl_likes pages (some start) [] []).1.Nodup)
    ∧ GetUserLikedReviews.crawl_likes GetUserLikedReviews.cyclePages
        (some GetUserLikedReviews.cycleStart) [] []
      = ([GetUserLikedReviews.cycleStart, GetUserLikedReviews.cyclePage2],
         ["https://www.letterboxd.com/x/film/f1/",
          "https://www.letterboxd.com/y/film/f2/"])
    ∧ GetUserLikedReviews.get_all_likes_review_urls GetUserLikedReviews.cyclePages "u"
      = ["https://www.letterboxd.com/x/film/f1/",
         "https://www.letterboxd.com/y/film/f2/"] := by
  have hmid : GetUserLikedReviews.crawl_likes GetUserLikedReviews.cyclePages
      (some GetUserLikedReviews.cycleStart) [] []
      = ([GetUserLikedReviews.cycleStart, GetUserLikedReviews.cyclePage2],
         ["https://www.letterboxd.com/x/film/f1/",
          "https://www.letterboxd.com/y/film/f2/"]) := by
    rw [GetUserLikedReviews.crawl_likes_step_eq GetUserLikedReviews.cyclePages
      GetUserLikedReviews.cycleStart [] []
      ⟨"h", ["https://www.letterboxd.com/x/film/f1/"],
       some GetUserLikedReviews.cyclePage2⟩
      (by decide) (by rfl) (by decide)]
    simp only [Option.map_some', List.nil_append]
    rw [show UrlParse.canonicalize_url GetUserLikedReviews.cyclePage2
        = GetUserLikedReviews.cyclePage2 from by decide]
    rw [GetUserLikedReviews.crawl_likes_step_eq GetUserLikedReviews.cyclePages
      GetUserLikedReviews.cyclePage2 [GetUserLikedReviews.cycleStart]
      ["https://www.letterboxd.com/x/film/f1/"]
      ⟨"h", ["https://www.letterboxd.com/y/film/f2/"],
       some "https://www.letterboxd.com/u/likes/reviews/?esi=1"⟩
      (by decide) (by rfl) (by decide)]
    simp only [Option.map_some']
    rw [show UrlParse.canonicalize_url "https://www.letterboxd.com/u/likes/reviews/?esi=1"
        = GetUserLikedReviews.cycleStart from by decide]
    rw [GetUserLikedReviews.crawl_likes_seen_eq _ _ _ _ (by decide)]
    decide
  refine ⟨?_, hmid, ?_⟩
  · intro pages start
    exact (GetUserLikedReviews.crawl_likes_trace_inv pages _ (some start) [] []
      (Nat.le_refl _)).1
  · rw [GetUserLikedReviews.get_all_likes_review_urls,
      show ("https://www.letterboxd.com/" ++ "u" ++ "/likes/reviews/")
        = GetUserLikedReviews.cycleStart from rfl, hmid]
    decide

/-- C5: the URL canonicalizer is idempotent on every URL string, returns
empty input unchanged, keeps only scheme, authority and path, and its
output re-parses with an empty query and fragment. -/
theorem c5_canonicalize_idempotent :
    (∀ u : List Char, UrlParse.canonicalize_url_chars (UrlParse.canonicalize_url_chars u)
        = UrlParse.canonicalize_url_chars u)
    ∧ UrlParse.canonicalize_url "" = ""
    ∧ (∀ u : List Char, u ≠ [] →
        UrlParse.canonicalize_url_chars u
          = UrlParse.urlunsplit_noqf (UrlParse.urlsplit u).scheme
              (UrlParse.urlsplit u).netloc (UrlParse.urlsplit u).path)
    ∧ (∀ u : List Char,
        (UrlParse.urlsplit (UrlParse.canonicalize_url_chars u)).query = []
          ∧ (UrlParse.urlsplit (UrlParse.canonicalize_url_chars u)).fragment = []) := by
  refine ⟨UrlParse.canonicalize_idem, rfl, ?_, ?_⟩
  · intro u hu
    rw [UrlParse.canonicalize_url_chars, if_neg hu]
  · intro u
    by_cases hu : u = []
    · subst hu
      exact ⟨rfl, rfl⟩
    · have hInv := UrlParse.urlsplit_inv u
      have hcan : UrlParse.canonicalize_url_chars u
          = UrlParse.urlunsplit_noqf (UrlParse.urlsplit u).scheme
              (UrlParse.urlsplit u).netloc (UrlParse.urlsplit u).path := by
        rw [UrlParse.canonicalize_url_chars, if_neg hu]
      rw [hcan, UrlParse.canonInv_unsplit hInv]
      exact ⟨rfl, rfl⟩

/-- C5 witness: the idempotence and query/fragment stripping observed on a
concrete URL with uppercase scheme, query and fragment. -/
theorem c5_canonicalize_witness :
    ("HTTP://a/b?q#f".data ≠ ([] : List Char))
    ∧ UrlParse.canonicalize_url_chars "HTTP://a/b?q#f".data
        = UrlParse.urlunsplit_noqf (UrlParse.urlsplit "HTTP://a/b?q#f".data).scheme
            (UrlParse.urlsplit "HTTP://a/b?q#f".data).netloc
            (UrlParse.urlsplit "HTTP://a/b?q#f".data).path
    ∧ UrlParse.canonicalize_url_chars "HTTP://a/b?q#f".data = "http://a/b".data :=
  ⟨by decide, c5_canonicalize_idempotent.2.2.1 _ (by decide), by decide⟩

/-- C4 (amended): class-derived ratings are the sentinel -1 or lie in
`[0.5, 5]` in half-star increments; glyph-derived ratings are -1 or a
half-star multiple `≥ 1` — but are not bounded by 5 when the text carries
more than five star glyphs; the sentinel -1 is preserved by the
normalization step. -/
theorem c4_rating_value_shape :
    (∀ cl, GetUserRatings.parse_rating_from_class cl = -1
        ∨ ∃ k : ℕ, 1 ≤ k ∧ k ≤ 10
            ∧ GetUserRatings.parse_rating_from_class cl = (k : ℚ) / 2)
    ∧ (∀ t, GetUserRatings.parse_rating_text t = -1
        ∨ ∃ k : ℕ, 2 ≤ k ∧ GetUserRatings.parse_rating_text t = (k : ℚ) / 2)
    ∧ GetUserRatings.normalize_possible_fraction (-1) = -1 := by
  refine ⟨?_, ?_, ?_⟩
  · intro cl
    cases hf : cl.find? (fun c => c.data.take 6 == "rated-".data) with
    | none => left; simp only [GetUserRatings.parse_rating_from_class, hf]
    | some c =>
      cases hp : pyParseInt (c.data.drop 6) with
      | none => left; simp only [GetUserRatings.parse_rating_from_class, hf, hp]
      | some n =>
        simp only [GetUserRatings.parse_rating_from_class, hf, hp]
        by_cases hcond : n < 5 ∨ 50 < n ∨ n % 5 ≠ 0
        · left; rw [if_pos hcond]
        · right
          rw [if_neg hcond]
          obtain ⟨m, rfl⟩ : ∃ m : Int, n = 5 * m := ⟨n / 5, by omega⟩
          refine ⟨m.toNat, by omega, by omega, ?_⟩
          have hc : ((m.toNat : ℕ) : ℚ) = (m : ℚ) := by
            exact_mod_cast Int.toNat_of_nonneg (show (0 : Int) ≤ m by omega)
          push_cast
          rw [hc]
          ring
  · intro t
    simp only [GetUserRatings.parse_rating_text]
    split_ifs with h1 h2 h3
    · left; rfl
    · left; rfl
    · right
      have hmem : '★' ∈ pyStrip t.data := by
        have : (pyStrip t.data).contains '★' = true := by
          revert h2
          cases (pyStrip t.data).contains '★' <;> simp
        simpa using this
      have hfil : '★' ∈ (pyStrip t.data).filter (· == '★') :=
        List.mem_filter.mpr ⟨hmem, by simp⟩
      have hlen : 1 ≤ ((pyStrip t.data).filter (· == '★')).length :=
        List.length_pos.mpr (List.ne_nil_of_mem hfil)
      refine ⟨2 * ((pyStrip t.data).filter (· == '★')).length + 1, by omega, ?_⟩
      push_cast
      ring
    · right
      have hmem : '★' ∈ pyStrip t.data := by
        have : (pyStrip t.data).contains '★' = true := by
          revert h2
          cases (pyStrip t.data).contains '★' <;> simp
        simpa using this
      have hfil : '★' ∈ (pyStrip t.data).filter (· == '★') :=
        List.mem_filter.mpr ⟨hmem, by simp⟩
      have hlen : 1 ≤ ((pyStrip t.data).filter (· == '★')).length :=
        List.length_pos.mpr (List.ne_nil_of_mem hfil)
      refine ⟨2 * ((pyStrip t.data).filter (· == '★')).length, by omega, ?_⟩
      push_cast
      ring
  · rw [GetUserRatings.normalize_possible_fraction, if_neg (by norm_num)]

end LetterboxdTasteGraph
